import Mathlib

/-!
# Verification of the packscripts mod-state engine

A shallow embedding of the core logic of the `packscripts` repository:
the partitioner (`divide_to_full_groups`), the deep enable/disable
traversal (`disable_mod_deep` / `enable_mod_deep` / `isNotItself`),
the identity extractor (`parse_mod_details`, `extract_modinfos`,
`filterForFaultyDependencies`), the reconciler (`update_list`,
`trace_deps`, `getModDeep`) and the group partition helper
(`get_mods_in_group`).

Modelling conventions:
* JavaScript strings are Lean `String`s; all string manipulation is
  implemented over the underlying character list `String.data` so that
  concrete computations reduce in the kernel.
* Recursive traversals whose JavaScript originals are not structurally
  terminating are embedded with an explicit fuel parameter and return
  `Option` / `none` on fuel exhaustion.  Divergence of the original is
  expressed as exhaustion of every fuel bound.
* JavaScript `Map`s are association lists `List (String × Mod)`;
  `Map.get` is first-match lookup, in-place mutation of a value is
  `regSet` (update at the key).
* JavaScript exceptions (property access on `null`/`undefined`, string
  methods applied to non-strings) are embedded with `Except Unit`.
-/

namespace Packscripts

/-! ## String helpers (character-list implementations of the JS string
operations used by the source) -/

/-- Character-level lowercasing of a string, as used for every
`toLowerCase()` comparison in the source (mod ids are ASCII). -/
def lc (s : String) : List Char :=
  s.data.map Char.toLower

/-- JS `a.toLowerCase() === b.toLowerCase()`. -/
def eqCI (a b : String) : Bool :=
  lc a == lc b

/-- JS `String.prototype.trim()` (strip leading/trailing whitespace). -/
def trimStr (s : String) : String :=
  ⟨(s.data.dropWhile Char.isWhitespace).reverse.dropWhile Char.isWhitespace |>.reverse⟩

/-- Split a character list at every occurrence of a separator
satisfying `p` (separators are dropped; empty segments are kept),
mirroring JS `String.prototype.split`. -/
def splitChars (p : Char → Bool) : List Char → List (List Char)
  | [] => [[]]
  | c :: cs =>
    let rest := splitChars p cs
    if p c then [] :: rest
    else
      match rest with
      | [] => [[c]]
      | r :: rs => (c :: r) :: rs

/-- JS `s.split(',')`. -/
def splitCommas (s : String) : List String :=
  (splitChars (· == ',') s.data).map (fun l => ⟨l⟩)

/-- The lines of a string for the purposes of the JS `m` regex flag
(`^`/`$` anchor at `\n` and `\r` line terminators). -/
def jsLines (l : List Char) : List (List Char) :=
  splitChars (fun c => c == '\n' || c == '\r') l

/-- JS `s.endsWith(suffix)` on character lists. -/
def endsWithChars (suf l : List Char) : Bool :=
  List.isSuffixOf suf l

/-- Prefix test on character lists. -/
def isPrefixChars : List Char → List Char → Bool
  | [], _ => true
  | _ :: _, [] => false
  | a :: as, b :: bs => a == b && isPrefixChars as bs

/-- JS `s.includes(sub)` on character lists. -/
def containsSub (pat : List Char) : List Char → Bool
  | [] => pat.isEmpty
  | c :: cs => isPrefixChars pat (c :: cs) || containsSub pat cs

/-- The regex `/((?:Minecraft)?Forge(?:@|$))|(^\s*FML\s*$)/im` applied
by `filterForFaultyDependencies` and `trace_deps`: it matches iff
(case-insensitively) `forge@` occurs anywhere, or a line ends in
`forge`, or a line is `fml` surrounded by optional whitespace.  (The
optional `(?:Minecraft)?` prefix does not constrain matching.) -/
def forgeMatch (s : String) : Bool :=
  let low := lc s
  containsSub "forge@".data low ||
  (jsLines low).any (fun line => endsWithChars "forge".data line) ||
  (jsLines low).any (fun line =>
    ((line.dropWhile Char.isWhitespace).reverse.dropWhile Char.isWhitespace).reverse
      == "fml".data)

/-- JS `dep.replace(/@.+$/, '')`: delete everything from the first `@`
that is followed by at least one character with no line break up to the
end of the string (`.` does not match `\n`, `$` is end of input). -/
def stripVersion (s : String) : String :=
  ⟨stripVersionAux s.data⟩
where
  stripVersionAux : List Char → List Char
    | [] => []
    | c :: cs =>
      if c == '@' && cs.length > 0 && !(cs.contains '\n') && !(cs.contains '\r')
      then []
      else c :: stripVersionAux cs

/-- JS `path.replace(/\.disabled$/m, '')` as used by `enable_mod_deep`
(the `m` flag would also strip before an embedded line break, which
cannot occur in a file path). -/
def stripDisabledSuffix (s : String) : String :=
  if endsWithChars ".disabled".data s.data
  then ⟨s.data.take (s.data.length - 9)⟩
  else s

/-- JS `path.endsWith('.disabled')`. -/
def endsDisabled (s : String) : Bool :=
  endsWithChars ".disabled".data s.data

/-- Worker for `dedupExact`: `seen` collects the values already kept. -/
def dedupExactAux (seen : List String) : List String → List String
  | [] => []
  | x :: xs =>
    if seen.contains x then dedupExactAux seen xs
    else x :: dedupExactAux (x :: seen) xs

/-- Exact-equality deduplication keeping the first occurrence, i.e.
`Array.from(new Set(list))`. -/
def dedupExact (l : List String) : List String :=
  dedupExactAux [] l

/-- JS `Set.prototype.add` on an insertion-ordered duplicate-free list:
append unless already present. -/
def addS (l : List String) (x : String) : List String :=
  if l.contains x then l else l ++ [x]

/-! ## Partitioner: `divide_to_full_groups` (src/src/utils.ts, lines 189-206)

The JS loop `for (let i = divisor; i--;) groups.push(base_size)` pushes
`base_size` exactly `divisor` times; the `if (leftover)` block then adds
one to the first `leftover` entries. -/

def divide_to_full_groups (base divisor : Nat) : List Nat :=
  let base_size := base / divisor
  let groups := List.replicate divisor base_size
  let leftover := base % divisor
  if leftover ≠ 0 then
    groups.mapIdx (fun i g => if i < leftover then g + 1 else g)
  else
    groups

lemma mapIdx_id_nat (l : List Nat) : l.mapIdx (fun _ g => g) = l := by
  induction l with
  | nil => simp
  | cons a t ih => rw [List.mapIdx_cons]; simpa using ih

lemma mapIdx_replicate_incr (d r q : Nat) (h : r ≤ d) :
    (List.replicate d q).mapIdx (fun i g => if i < r then g + 1 else g) =
      List.replicate r (q + 1) ++ List.replicate (d - r) q := by
  induction d generalizing r with
  | zero =>
    have : r = 0 := Nat.le_zero.mp h
    subst this; simp
  | succ d ih =>
    cases r with
    | zero =>
      simp only [Nat.not_lt_zero, if_false, Nat.sub_zero, List.replicate,
        List.nil_append]
      exact mapIdx_id_nat _
    | succ r =>
      have hr : r ≤ d := Nat.succ_le_succ_iff.mp h
      rw [List.replicate_succ, List.mapIdx_cons]
      simp only [Nat.zero_lt_succ, if_true, Nat.add_lt_add_iff_right]
      rw [ih r hr, List.replicate_succ, Nat.succ_sub_succ]
      simp

lemma divide_to_full_groups_decomp (total d : Nat) (hd : 0 < d) :
    divide_to_full_groups total d =
      List.replicate (total % d) (total / d + 1) ++
        List.replicate (d - total % d) (total / d) := by
  unfold divide_to_full_groups
  by_cases hr : total % d = 0
  · simp [hr]
  · have hle : total % d ≤ d := Nat.le_of_lt (Nat.mod_lt _ hd)
    simp only [hr, if_true, ne_eq, not_false_iff]
    exact mapIdx_replicate_incr d (total % d) (total / d) hle

/-- Claim C1: for every `total ≥ 0` and `divisor ≥ 1`,
`divide_to_full_groups total divisor` has exactly `divisor` entries, the
entries sum to `total`, the list is `total % divisor` copies of
`total / divisor + 1` followed by `divisor - total % divisor` copies of
`total / divisor` (so every entry is the floor or the floor plus one,
the larger entries come first in index order), and exactly
`total % divisor` entries equal `total / divisor + 1`. -/
theorem c1_divide_to_full_groups (total divisor : Nat) (h : 1 ≤ divisor) :
    (divide_to_full_groups total divisor).length = divisor ∧
    (divide_to_full_groups total divisor).sum = total ∧
    divide_to_full_groups total divisor =
      List.replicate (total % divisor) (total / divisor + 1) ++
        List.replicate (divisor - total % divisor) (total / divisor) ∧
    (∀ g ∈ divide_to_full_groups total divisor,
      g = total / divisor ∨ g = total / divisor + 1) ∧
    (divide_to_full_groups total divisor).count (total / divisor + 1) =
      total % divisor := by
  have hd : 0 < divisor := h
  have hdecomp := divide_to_full_groups_decomp total divisor h
  have hle : total % divisor ≤ divisor := Nat.le_of_lt (Nat.mod_lt _ hd)
  refine ⟨?_, ?_, hdecomp, ?_, ?_⟩
  · rw [hdecomp, List.length_append, List.length_replicate,
      List.length_replicate]
    omega
  · rw [hdecomp]
    have hmod := Nat.div_add_mod total divisor
    have hmul : total % divisor * (total / divisor) ≤
        divisor * (total / divisor) := Nat.mul_le_mul_right _ hle
    simp only [List.sum_append, List.sum_replicate, smul_eq_mul]
    rw [Nat.mul_succ, Nat.sub_mul]
    generalize total % divisor * (total / divisor) = A at *
    generalize divisor * (total / divisor) = B at *
    omega
  · intro g hg
    rw [hdecomp] at hg
    rcases List.mem_append.mp hg with hg | hg
    · right; exact (List.eq_of_mem_replicate hg)
    · left; exact (List.eq_of_mem_replicate hg)
  · rw [hdecomp]
    rw [List.count_append, List.count_replicate_self, List.count_replicate]
    simp

/-- Witness for C1 at the spec scenario `divide_to_full_groups 10 3`:
the hypothesis `1 ≤ 3` holds and the partition is `[4, 3, 3]`. -/
theorem c1_divide_to_full_groups_witness :
    divide_to_full_groups 10 3 = [4, 3, 3] ∧
    ((divide_to_full_groups 10 3).length = 3 ∧
      (divide_to_full_groups 10 3).sum = 10 ∧
      divide_to_full_groups 10 3 =
        List.replicate (10 % 3) (10 / 3 + 1) ++
          List.replicate (3 - 10 % 3) (10 / 3) ∧
      (∀ g ∈ divide_to_full_groups 10 3, g = 10 / 3 ∨ g = 10 / 3 + 1) ∧
      (divide_to_full_groups 10 3).count (10 / 3 + 1) = 10 % 3) :=
  ⟨by decide, c1_divide_to_full_groups 10 3 (by decide)⟩

/-! ## Data model (src/src/utils/mods.ts, lines 5-74)

`update_state` / `mod_object` fields that TypeScript types as possibly
`undefined` are `Option`s; the JS `Map<string, mod_object>` is an
association list with first-match lookup (JS map keys are unique). -/

structure UpdateState where
  version : Option String
  disable_check : Option Bool
  frequency : Option String
  last_status : Option String
  last_updated_at : Option String
  source_type : Option String
  file_pattern : Option String
deriving DecidableEq, Repr

structure Mod where
  file_path : String
  tags : Option (List String)
  source : Option String
  notes : Option String
  wanted_by : Option (List String)
  wants : Option (List String)
  enabled : Option Bool
  other_mod_ids : Option (List String)
  update_state : UpdateState
deriving DecidableEq, Repr

/-- `default_mod_object` (src/src/utils/mods.ts, lines 38-56). -/
def default_mod_object : Mod :=
  { file_path := ""
    tags := some ["SIDE.CLIENT", "SIDE.SERVER"]
    source := some ""
    notes := some ""
    wanted_by := some []
    wants := some []
    enabled := some true
    other_mod_ids := some []
    update_state :=
      { version := some ""
        disable_check := some false
        frequency := some "EOL"
        last_status := some "200"
        last_updated_at := some ""
        source_type := some "OTHER"
        file_pattern := some "" } }

/-- The extraction result `mod_object_unsafe`
(src/src/utils/mods.ts, lines 58-74); its nested `update_state_unsafe`
(`version` / `last_updated_at`) is flattened into the `us_` fields. -/
structure ModUnsafe where
  mod_id : String
  file_path : String
  enabled : Bool
  wants : Option (List String)
  other_mod_ids : Option (List String)
  us_version : Option String
  us_last_updated_at : Option String
deriving DecidableEq, Repr

abbrev Registry := List (String × Mod)

/-- JS `mod_map.get(k)`: first-match association lookup (JS map keys
are unique, so first-match is exact). -/
def regGet : Registry → String → Option Mod
  | [], _ => none
  | p :: t, k => if k = p.1 then some p.2 else regGet t k

/-- In-place mutation of the record stored under key `k` (JS object
mutation through a reference obtained from the map). -/
def regSet (m : Registry) (k : String) (v : Mod) : Registry :=
  m.map (fun p => if p.1 = k then (p.1, v) else p)

/-- JS `mod_map.set(k, v)`: overwrite in place if the key exists,
append otherwise. -/
def regInsert (m : Registry) (k : String) (v : Mod) : Registry :=
  if (regGet m k).isSome then regSet m k v else m ++ [(k, v)]

/-! ## Deep toggle engine (src/src/utils/mods.ts, lines 202-273)

The JS recursion is not structurally terminating (it recurses into
dependency edges before consulting `changed_list`), so the embedding
takes a fuel parameter bounding the recursion depth and returns `none`
when the bound is hit.  A call result is `some (registry', changed',
count)`. -/

/-- `isNotItself` (src/src/utils/mods.ts, lines 232-237).  Note that the
source compares each entry of `other_mod_ids` against `mod_id`, not
against `base`. -/
def isNotItself (base mod_id : String) (other_mod_ids : List String) : Bool :=
  !(lc base == lc mod_id) &&
  (other_mod_ids.find? (fun other_id => lc other_id == lc mod_id)).isNone

/-- The `for (const dependency of ...)` loop shared by
`disable_mod_deep` (with `keep dep = isNotItself dep mod_id other`) and
`enable_mod_deep` (with `keep` constantly true): thread the registry and
visited list left to right, summing the change counts. -/
def depsLoop (rec : Registry → String → List String →
    Option (Registry × List String × Nat)) (keep : String → Bool) :
    Registry → List String → List String →
      Option (Registry × List String × Nat)
  | m, [], changed => some (m, changed, 0)
  | m, dep :: deps, changed =>
    if keep dep then
      (rec m dep changed).bind fun r1 =>
        (depsLoop rec keep r1.1 deps r1.2.1).bind fun r2 =>
          some (r2.1, r2.2.1, r1.2.2 + r2.2.2)
    else
      depsLoop rec keep m deps changed

/-- Re-reading the current record through the live JS object reference:
the value now stored under `mod_id` (unchanged key set makes the
fallback `mod` unreachable in practice). -/
def reRead (m : Registry) (mod_id : String) (mod : Mod) : Mod :=
  (regGet m mod_id).getD mod

/-- The tail of `disable_mod_deep` after the recursion over dependents
(src/src/utils/mods.ts, lines 215-226): re-read the record (the JS code
holds a live reference whose `enabled` flag deeper calls may have
flipped), and unless already visited or already disabled append the
`.disabled` suffix (the rename side effect), flip `enabled`, record the
id in the visited list and count one change. -/
def disableFinish (mod_id : String) (mod : Mod)
    (r : Registry × List String × Nat) :
    Option (Registry × List String × Nat) :=
  if !(r.2.1.contains mod_id) &&
      ((reRead r.1 mod_id mod).enabled == some true) then
    some (regSet r.1 mod_id
      { reRead r.1 mod_id mod with
          file_path := (reRead r.1 mod_id mod).file_path ++ ".disabled",
          enabled := some false },
      r.2.1 ++ [mod_id], r.2.2 + 1)
  else
    some (r.1, r.2.1, r.2.2)

/-- `disable_mod_deep` (src/src/utils/mods.ts, lines 202-230). -/
def disableFuel : Nat → Registry → String → List String →
    Option (Registry × List String × Nat)
  | 0, _, _, _ => none
  | fuel + 1, m, mod_id, changed =>
    match regGet m mod_id with
    | none => some (m, changed, 0)
    | some mod =>
      (depsLoop (fun m1 dep ch1 => disableFuel fuel m1 dep ch1)
          (fun dep => isNotItself dep mod_id (mod.other_mod_ids.getD []))
          m (mod.wanted_by.getD []) changed).bind
        (disableFinish mod_id mod)

/-- The tail of `enable_mod_deep` after the recursion over dependencies
(src/src/utils/mods.ts, lines 258-269): unless already visited or
already enabled, strip the `.disabled` suffix, flip `enabled`, record
the id and count one change. -/
def enableFinish (mod_id : String) (mod : Mod)
    (r : Registry × List String × Nat) :
    Option (Registry × List String × Nat) :=
  if !(r.2.1.contains mod_id) &&
      !((reRead r.1 mod_id mod).enabled == some true) then
    some (regSet r.1 mod_id
      { reRead r.1 mod_id mod with
          file_path := stripDisabledSuffix (reRead r.1 mod_id mod).file_path,
          enabled := some true },
      r.2.1 ++ [mod_id], r.2.2 + 1)
  else
    some (r.1, r.2.1, r.2.2)

/-- `enable_mod_deep` (src/src/utils/mods.ts, lines 246-273): recurse
into every entry of `wants` (no `isNotItself` filter here), then enable
the record itself unless already visited or already enabled. -/
def enableFuel : Nat → Registry → String → List String →
    Option (Registry × List String × Nat)
  | 0, _, _, _ => none
  | fuel + 1, m, mod_id, changed =>
    match regGet m mod_id with
    | none => some (m, changed, 0)
    | some mod =>
      (depsLoop (fun m1 dep ch1 => enableFuel fuel m1 dep ch1)
          (fun _ => true) m (mod.wants.getD []) changed).bind
        (enableFinish mod_id mod)

/-! ## Termination predicates for the deep toggle engine -/

/-- `disable_mod_deep mod_id mod_map changed` terminates iff some
recursion-depth bound suffices. -/
def disableTerminates (m : Registry) (id : String) (ch : List String) : Prop :=
  ∃ fuel r, disableFuel fuel m id ch = some r

/-- `enable_mod_deep mod_id mod_map changed` terminates iff some
recursion-depth bound suffices. -/
def enableTerminates (m : Registry) (id : String) (ch : List String) : Prop :=
  ∃ fuel r, enableFuel fuel m id ch = some r

/-! The two-record registry with mutual `wanted_by` and `wants` edges
(`A` lists `B` and `B` lists `A`). -/

def cycModA : Mod :=
  { default_mod_object with wants := some ["B"], wanted_by := some ["B"] }

def cycModB : Mod :=
  { default_mod_object with wants := some ["A"], wanted_by := some ["A"] }

def cycReg : Registry := [("A", cycModA), ("B", cycModB)]

/-- On the cyclic registry, `disable_mod_deep` recurses from `A` to `B`
and back before ever consulting the visited list, so every recursion
depth bound is exhausted. -/
lemma disable_cyc_none :
    ∀ fuel ch, disableFuel fuel cycReg "A" ch = none ∧
      disableFuel fuel cycReg "B" ch = none := by
  intro fuel
  induction fuel with
  | zero => intro ch; exact ⟨rfl, rfl⟩
  | succ f ih =>
    intro ch
    constructor
    · have h := (ih ch).2
      simp only [disableFuel]
      rw [show regGet cycReg "A" = some cycModA from rfl]
      simp only [depsLoop,
        show cycModA.wanted_by.getD [] = ["B"] from rfl,
        show (isNotItself "B" "A" (cycModA.other_mod_ids.getD [])) = true
          from rfl, if_true, h, Option.none_bind]
    · have h := (ih ch).1
      simp only [disableFuel]
      rw [show regGet cycReg "B" = some cycModB from rfl]
      simp only [depsLoop,
        show cycModB.wanted_by.getD [] = ["A"] from rfl,
        show (isNotItself "A" "B" (cycModB.other_mod_ids.getD [])) = true
          from rfl, if_true, h, Option.none_bind]

/-- On the cyclic registry, `enable_mod_deep` recurses through `wants`
unconditionally, so every recursion depth bound is exhausted. -/
lemma enable_cyc_none :
    ∀ fuel ch, enableFuel fuel cycReg "A" ch = none ∧
      enableFuel fuel cycReg "B" ch = none := by
  intro fuel
  induction fuel with
  | zero => intro ch; exact ⟨rfl, rfl⟩
  | succ f ih =>
    intro ch
    constructor
    · have h := (ih ch).2
      simp only [enableFuel]
      rw [show regGet cycReg "A" = some cycModA from rfl]
      simp only [depsLoop, show cycModA.wants.getD [] = ["B"] from rfl,
        if_true, h, Option.none_bind]
    · have h := (ih ch).1
      simp only [enableFuel]
      rw [show regGet cycReg "B" = some cycModB from rfl]
      simp only [depsLoop, show cycModB.wants.getD [] = ["A"] from rfl,
        if_true, h, Option.none_bind]

/-- Claim C2 counterexample: on the registry where `A` is in
`B.wanted_by` and `B` is in `A.wanted_by` (and likewise for `wants`),
neither `disable_mod_deep "A"` nor `enable_mod_deep "A"` terminates: the
visited list is only consulted after the recursion into dependency
edges, so it does not short-circuit the recursion and the mutual edges
are followed forever. -/
theorem c2_counterexample :
    ¬ disableTerminates cycReg "A" [] ∧ ¬ enableTerminates cycReg "A" [] := by
  constructor
  · rintro ⟨fuel, r, hr⟩
    rw [(disable_cyc_none fuel []).1] at hr
    exact Option.noConfusion hr
  · rintro ⟨fuel, r, hr⟩
    rw [(enable_cyc_none fuel []).1] at hr
    exact Option.noConfusion hr

/-- Claim C3: evaluating `isNotItself` at the failing inputs.  The
claim says `isNotItself dep mod_id other_ids` is `false` exactly when
`dep` equals `mod_id` case-insensitively or `dep` occurs
case-insensitively in `other_ids`; the source instead compares the
entries of `other_ids` against `mod_id`.  With `dep = "b"`,
`mod_id = "a"`, `other_ids = ["b"]` the claim requires `false` (the
dependency is an alias of the record) but the code returns `true`; with
`dep = "x"`, `mod_id = "a"`, `other_ids = ["a"]` the claim requires
`true` but the code returns `false`. -/
theorem c3_isNotItself_eval :
    isNotItself "b" "a" ["b"] = true ∧ isNotItself "x" "a" ["a"] = false := by
  decide

/-! ## Claim C5: the concrete disable scenario -/

def c5ModA : Mod :=
  { default_mod_object with
      wants := some ["B"]
      wanted_by := some []
      enabled := some true
      file_path := "mods/A.jar" }

def c5ModB : Mod :=
  { default_mod_object with
      wants := some []
      wanted_by := some ["A"]
      enabled := some true
      file_path := "mods/B.jar" }

def c5Reg : Registry := [("A", c5ModA), ("B", c5ModB)]

/-- Claim C5: on the two-record registry `A.wants = [B]`,
`B.wanted_by = [A]`, both enabled with agreeing file paths, disabling
`B` deep (fuel 3 amply covers the depth-2 recursion) disables `A`
before `B` (the visited list ends up `["A", "B"]`), leaves both records
disabled with the `.disabled` suffix appended, and returns change count
2. -/
theorem c5_disable_scenario :
    disableFuel 3 c5Reg "B" [] =
      some ([("A", { c5ModA with
                       enabled := some false
                       file_path := "mods/A.jar.disabled" }),
             ("B", { c5ModB with
                       enabled := some false
                       file_path := "mods/B.jar.disabled" })],
        ["A", "B"], 2) := by
  decide

/-! ## Graph preservation: the deep toggle engine never changes keys,
`wanted_by`, `wants` or `other_mod_ids` — only `enabled` and
`file_path`. -/

/-- The dependency-graph fields of a record. -/
def gf (mod : Mod) : List String × List String × List String :=
  (mod.wanted_by.getD [], mod.wants.getD [], mod.other_mod_ids.getD [])

/-- Every entry of `mp` has an entry of `m` with the same key and the
same graph fields. -/
def edgePreserve (m mp : Registry) : Prop :=
  ∀ p ∈ mp, ∃ q ∈ m, p.1 = q.1 ∧ gf p.2 = gf q.2

lemma edgePreserve_refl (m : Registry) : edgePreserve m m :=
  fun p hp => ⟨p, hp, rfl, rfl⟩

lemma edgePreserve_trans {a b c : Registry} (h1 : edgePreserve a b)
    (h2 : edgePreserve b c) : edgePreserve a c := by
  intro p hp
  obtain ⟨q, hq, hk, hg⟩ := h2 p hp
  obtain ⟨s, hs, hk2, hg2⟩ := h1 q hq
  exact ⟨s, hs, hk.trans hk2, hg.trans hg2⟩

lemma regGet_mem {m : Registry} {k : String} {v : Mod}
    (h : regGet m k = some v) : (k, v) ∈ m := by
  induction m with
  | nil => cases h
  | cons p t ih =>
    simp only [regGet] at h
    split at h
    · next heq =>
      cases h
      subst heq
      exact List.mem_cons_self _ _
    · exact List.mem_cons_of_mem _ (ih h)

lemma regGet_none_not_mem {m : Registry} {k : String}
    (h : regGet m k = none) : ∀ p ∈ m, p.1 ≠ k := by
  induction m with
  | nil => intro p hp; cases hp
  | cons q t ih =>
    simp only [regGet] at h
    split at h
    · cases h
    · next hne =>
      intro p hp
      rcases List.mem_cons.mp hp with rfl | hp
      · intro hk; exact hne hk.symm
      · exact ih h p hp

/-- Lookup after an in-place update: at key `k` the stored value (if
any) becomes `v`, other keys are untouched. -/
lemma regGet_regSet (m : Registry) (k : String) (v : Mod) (k2 : String) :
    regGet (regSet m k v) k2 =
      if k2 = k then (regGet m k).map (fun _ => v) else regGet m k2 := by
  induction m with
  | nil => simp [regSet, regGet]
  | cons p t ih =>
    obtain ⟨a, b⟩ := p
    have hcons : regSet ((a, b) :: t) k v =
        (if a = k then (a, v) else (a, b)) :: regSet t k v := rfl
    rw [hcons]
    by_cases hp : a = k
    · subst hp
      rw [if_pos rfl]
      by_cases h2 : k2 = a
      · subst h2
        simp [regGet]
      · simp [regGet, h2, ih]
    · rw [if_neg hp]
      have hk : ¬ k = a := fun h => hp h.symm
      by_cases h2 : k2 = a
      · subst h2
        simp [regGet, hp]
      · simp [regGet, h2, hk, ih]

lemma mem_regSet {m : Registry} {k : String} {v : Mod} {p : String × Mod}
    (h : p ∈ regSet m k v) :
    p ∈ m ∨ (p.1 = k ∧ p.2 = v ∧ ∃ q ∈ m, q.1 = k) := by
  unfold regSet at h
  obtain ⟨q, hq, hpq⟩ := List.mem_map.mp h
  by_cases hk : q.1 = k
  · right
    rw [if_pos hk] at hpq
    subst hpq
    exact ⟨hk, rfl, q, hq, hk⟩
  · left
    rw [if_neg hk] at hpq
    subst hpq
    exact hq

/-- The record obtained by re-reading under key `k` has the graph
fields of an entry of `m` with key `k`, provided some entry with key
`k` exists. -/
lemma gf_reRead {m : Registry} {k : String} {mod : Mod}
    (hex : ∃ q ∈ m, q.1 = k) :
    ∃ q ∈ m, q.1 = k ∧ gf (reRead m k mod) = gf q.2 := by
  unfold reRead
  cases hg : regGet m k with
  | none =>
    obtain ⟨q, hq, hqk⟩ := hex
    exact absurd hqk (regGet_none_not_mem hg q hq)
  | some x => exact ⟨(k, x), regGet_mem hg, rfl, rfl⟩

lemma disableFinish_pres {id : String} {mod : Mod}
    {r x : Registry × List String × Nat}
    (h : disableFinish id mod r = some x) :
    edgePreserve r.1 x.1 := by
  unfold disableFinish at h
  split at h
  · cases h
    intro p hp
    rcases mem_regSet hp with hpm | ⟨hk, hv, q, hq, hqk⟩
    · exact ⟨p, hpm, rfl, rfl⟩
    · obtain ⟨s, hs, hsk, hsg⟩ := @gf_reRead _ _ mod ⟨q, hq, hqk⟩
      refine ⟨s, hs, by rw [hk, hsk], ?_⟩
      rw [hv, ← hsg]
      rfl
  · cases h
    exact edgePreserve_refl _

lemma enableFinish_pres {id : String} {mod : Mod}
    {r x : Registry × List String × Nat}
    (h : enableFinish id mod r = some x) :
    edgePreserve r.1 x.1 := by
  unfold enableFinish at h
  split at h
  · cases h
    intro p hp
    rcases mem_regSet hp with hpm | ⟨hk, hv, q, hq, hqk⟩
    · exact ⟨p, hpm, rfl, rfl⟩
    · obtain ⟨s, hs, hsk, hsg⟩ := @gf_reRead _ _ mod ⟨q, hq, hqk⟩
      refine ⟨s, hs, by rw [hk, hsk], ?_⟩
      rw [hv, ← hsg]
      rfl
  · cases h
    exact edgePreserve_refl _

lemma disableFinish_some (id : String) (mod : Mod)
    (r : Registry × List String × Nat) :
    ∃ x, disableFinish id mod r = some x := by
  unfold disableFinish
  split <;> exact ⟨_, rfl⟩

lemma enableFinish_some (id : String) (mod : Mod)
    (r : Registry × List String × Nat) :
    ∃ x, enableFinish id mod r = some x := by
  unfold enableFinish
  split <;> exact ⟨_, rfl⟩

lemma depsLoop_pres {rec : Registry → String → List String →
    Option (Registry × List String × Nat)} {keep : String → Bool}
    (hrec : ∀ m id ch r, rec m id ch = some r → edgePreserve m r.1) :
    ∀ deps m ch r, depsLoop rec keep m deps ch = some r →
      edgePreserve m r.1 := by
  intro deps
  induction deps with
  | nil =>
    intro m ch r h
    simp only [depsLoop] at h
    cases h
    exact edgePreserve_refl _
  | cons d ds ih =>
    intro m ch r h
    simp only [depsLoop] at h
    split at h
    · rw [Option.bind_eq_some] at h
      obtain ⟨r1, h1, h2⟩ := h
      rw [Option.bind_eq_some] at h2
      obtain ⟨r2, h21, h22⟩ := h2
      cases h22
      exact edgePreserve_trans (hrec _ _ _ _ h1) (ih _ _ r2 h21)
    · exact ih _ _ _ h

lemma disable_pres : ∀ fuel m id ch r,
    disableFuel fuel m id ch = some r → edgePreserve m r.1 := by
  intro fuel
  induction fuel with
  | zero => intro m id ch r h; cases h
  | succ f ih =>
    intro m id ch r h
    simp only [disableFuel] at h
    split at h
    · cases h
      exact edgePreserve_refl _
    · next mod hg =>
      rw [Option.bind_eq_some] at h
      obtain ⟨r1, h1, h2⟩ := h
      have hp1 : edgePreserve m r1.1 :=
        depsLoop_pres (fun a b c d hh => ih a b c d hh) _ _ _ _ h1
      exact edgePreserve_trans hp1 (disableFinish_pres h2)

lemma enable_pres : ∀ fuel m id ch r,
    enableFuel fuel m id ch = some r → edgePreserve m r.1 := by
  intro fuel
  induction fuel with
  | zero => intro m id ch r h; cases h
  | succ f ih =>
    intro m id ch r h
    simp only [enableFuel] at h
    split at h
    · cases h
      exact edgePreserve_refl _
    · next mod hg =>
      rw [Option.bind_eq_some] at h
      obtain ⟨r1, h1, h2⟩ := h
      have hp1 : edgePreserve m r1.1 :=
        depsLoop_pres (fun a b c d hh => ih a b c d hh) _ _ _ _ h1
      exact edgePreserve_trans hp1 (enableFinish_pres h2)

/-! ## Rank-based termination of the deep toggle engine -/

/-- `rk` strictly decreases along every `wanted_by` edge that passes
the `isNotItself` filter — the disable recursion graph. -/
def edgeHypD (m : Registry) (rk : String → Nat) : Prop :=
  ∀ p ∈ m, ∀ d ∈ (p.2.wanted_by.getD []).filter
      (fun d => isNotItself d p.1 (p.2.other_mod_ids.getD [])),
    rk d < rk p.1

/-- `rk` strictly decreases along every `wants` edge — the enable
recursion graph (the enable loop has no filter). -/
def edgeHypE (m : Registry) (rk : String → Nat) : Prop :=
  ∀ p ∈ m, ∀ d ∈ p.2.wants.getD [], rk d < rk p.1

lemma edgeHypD_transport {m mp : Registry} {rk : String → Nat}
    (hp : edgePreserve m mp) (h : edgeHypD m rk) : edgeHypD mp rk := by
  intro p hpm d hd
  obtain ⟨q, hq, hk, hg⟩ := hp p hpm
  have hwb : p.2.wanted_by.getD [] = q.2.wanted_by.getD [] :=
    congrArg Prod.fst hg
  have hoi : p.2.other_mod_ids.getD [] = q.2.other_mod_ids.getD [] :=
    congrArg (fun t => t.2.2) hg
  rw [hk]
  refine h q hq d ?_
  rw [← hwb, ← hoi, ← hk]
  exact hd

lemma edgeHypE_transport {m mp : Registry} {rk : String → Nat}
    (hp : edgePreserve m mp) (h : edgeHypE m rk) : edgeHypE mp rk := by
  intro p hpm d hd
  obtain ⟨q, hq, hk, hg⟩ := hp p hpm
  have hw : p.2.wants.getD [] = q.2.wants.getD [] :=
    congrArg (fun t => t.2.1) hg
  rw [hk]
  refine h q hq d ?_
  rw [← hw]; exact hd

lemma depsLoop_term {rec : Registry → String → List String →
    Option (Registry × List String × Nat)} {keep : String → Bool}
    (P : Registry → Prop) (Q : String → Prop)
    (hpres : ∀ m id ch r, rec m id ch = some r → edgePreserve m r.1)
    (htrans : ∀ m mp, edgePreserve m mp → P m → P mp)
    (hterm : ∀ m id ch, P m → Q id → ∃ r, rec m id ch = some r) :
    ∀ deps m ch, P m → (∀ d ∈ deps, keep d = true → Q d) →
      ∃ r, depsLoop rec keep m deps ch = some r := by
  intro deps
  induction deps with
  | nil => intro m ch _ _; exact ⟨(m, ch, 0), rfl⟩
  | cons d ds ih =>
    intro m ch hP hQ
    cases hk : keep d with
    | true =>
      obtain ⟨r1, h1⟩ := hterm m d ch hP (hQ d (List.mem_cons_self _ _) hk)
      have hP1 : P r1.1 := htrans _ _ (hpres _ _ _ _ h1) hP
      obtain ⟨r2, h2⟩ :=
        ih r1.1 r1.2.1 hP1 (fun x hx hkx => hQ x (List.mem_cons_of_mem _ hx) hkx)
      refine ⟨(r2.1, r2.2.1, r1.2.2 + r2.2.2), ?_⟩
      simp only [depsLoop, hk, if_true, h1, Option.some_bind, h2]
    | false =>
      obtain ⟨r2, h2⟩ :=
        ih m ch hP (fun x hx hkx => hQ x (List.mem_cons_of_mem _ hx) hkx)
      refine ⟨r2, ?_⟩
      simp only [depsLoop, hk, Bool.false_eq_true, if_false, h2]

lemma disable_term (rk : String → Nat) :
    ∀ fuel m id ch, edgeHypD m rk → rk id < fuel →
      ∃ r, disableFuel fuel m id ch = some r := by
  intro fuel
  induction fuel with
  | zero => intro m id ch _ hlt; omega
  | succ f ih =>
    intro m id ch hH hlt
    cases hg : regGet m id with
    | none => exact ⟨(m, ch, 0), by simp only [disableFuel, hg]⟩
    | some mod =>
      have hmem := regGet_mem hg
      have hdeps : ∀ d ∈ mod.wanted_by.getD [],
          (isNotItself d id (mod.other_mod_ids.getD [])) = true → rk d < f := by
        intro d hd hni
        have h2 : rk d < rk id :=
          hH (id, mod) hmem d (List.mem_filter.mpr ⟨hd, hni⟩)
        omega
      obtain ⟨r1, h1⟩ :=
        @depsLoop_term (fun m1 dep ch1 => disableFuel f m1 dep ch1)
          (fun dep => isNotItself dep id (mod.other_mod_ids.getD []))
          (fun mr => edgeHypD mr rk) (fun d => rk d < f)
          (fun a b c d hh => disable_pres f a b c d hh)
          (fun a b hp hedge => edgeHypD_transport hp hedge)
          (fun a b c hedge hq => ih a b c hedge hq)
          (mod.wanted_by.getD []) m ch hH hdeps
      obtain ⟨x, hx⟩ := disableFinish_some id mod r1
      exact ⟨x, by simp only [disableFuel, hg, h1, Option.some_bind, hx]⟩

lemma enable_term (rk : String → Nat) :
    ∀ fuel m id ch, edgeHypE m rk → rk id < fuel →
      ∃ r, enableFuel fuel m id ch = some r := by
  intro fuel
  induction fuel with
  | zero => intro m id ch _ hlt; omega
  | succ f ih =>
    intro m id ch hH hlt
    cases hg : regGet m id with
    | none => exact ⟨(m, ch, 0), by simp only [enableFuel, hg]⟩
    | some mod =>
      have hmem := regGet_mem hg
      have hdeps : ∀ d ∈ mod.wants.getD [], (true : Bool) = true → rk d < f := by
        intro d hd _
        have h2 : rk d < rk id := hH (id, mod) hmem d hd
        omega
      obtain ⟨r1, h1⟩ :=
        @depsLoop_term (fun m1 dep ch1 => enableFuel f m1 dep ch1)
          (fun _ => true)
          (fun mr => edgeHypE mr rk) (fun d => rk d < f)
          (fun a b c d hh => enable_pres f a b c d hh)
          (fun a b hp hedge => edgeHypE_transport hp hedge)
          (fun a b c hedge hq => ih a b c hedge hq)
          (mod.wants.getD []) m ch hH hdeps
      obtain ⟨x, hx⟩ := enableFinish_some id mod r1
      exact ⟨x, by simp only [enableFuel, hg, h1, Option.some_bind, hx]⟩

/-- Claim C2 (amended): the visited list is consulted only after the
recursion into dependency edges, so it does not short-circuit the
recursion; `disable_mod_deep` and `enable_mod_deep` do terminate on
every registry whose relevant dependency edges admit a strictly
decreasing rank (`wanted_by` edges passing the `isNotItself` filter for
disable, `wants` edges for enable — in particular every acyclic
registry), from any starting id and any shared visited list; on a
registry with a reachable dependency cycle, such as `A` in
`B.wanted_by` and `B` in `A.wanted_by`, the recursion exhausts every
depth bound (see the counterexample). -/
theorem c2_deep_toggle_termination (m : Registry) (rd re : String → Nat)
    (hd : edgeHypD m rd) (he : edgeHypE m re) (id : String)
    (ch : List String) :
    disableTerminates m id ch ∧ enableTerminates m id ch := by
  constructor
  · obtain ⟨r, hr⟩ := disable_term rd (rd id + 1) m id ch hd (by omega)
    exact ⟨rd id + 1, r, hr⟩
  · obtain ⟨r, hr⟩ := enable_term re (re id + 1) m id ch he (by omega)
    exact ⟨re id + 1, r, hr⟩

/-! Witness registry for the amended C2: the acyclic two-record
registry with `A.wants = [B]`, `B.wanted_by = [A]`. -/

def c2wModA : Mod :=
  { default_mod_object with wants := some ["B"], wanted_by := some [] }

def c2wModB : Mod :=
  { default_mod_object with wants := some [], wanted_by := some ["A"] }

def c2wReg : Registry := [("A", c2wModA), ("B", c2wModB)]

/-- Witness for the amended C2 at a concrete acyclic registry and
concrete rank functions. -/
theorem c2_deep_toggle_termination_witness :
    edgeHypD c2wReg (fun s => if s = "B" then 1 else 0) ∧
    edgeHypE c2wReg (fun s => if s = "A" then 1 else 0) ∧
    (disableTerminates c2wReg "B" [] ∧ enableTerminates c2wReg "B" []) :=
  ⟨by unfold edgeHypD; decide, by unfold edgeHypE; decide,
    c2_deep_toggle_termination c2wReg
      (fun s => if s = "B" then 1 else 0)
      (fun s => if s = "A" then 1 else 0)
      (by unfold edgeHypD; decide) (by unfold edgeHypE; decide) "B" []⟩

/-! ## Claim C9: idempotence of `enable_mod_deep`

Infrastructure: an enable run never changes keys or graph fields
(`sameGraph`), never disables an enabled record (`enBigger`), and only
appends to the visited list. -/

/-- Key-wise equality of the graph fields seen through lookup. -/
def sameGraph (m mp : Registry) : Prop :=
  ∀ k, (regGet mp k).map gf = (regGet m k).map gf

lemma sameGraph_refl (m : Registry) : sameGraph m m := fun _ => rfl

lemma sameGraph_trans {a b c : Registry} (h1 : sameGraph a b)
    (h2 : sameGraph b c) : sameGraph a c :=
  fun k => (h2 k).trans (h1 k)

/-- Every record enabled in `m` is still present and enabled in `mp`. -/
def enBigger (m mp : Registry) : Prop :=
  ∀ k mod, regGet m k = some mod → mod.enabled = some true →
    ∃ mod2, regGet mp k = some mod2 ∧ mod2.enabled = some true

lemma enBigger_refl (m : Registry) : enBigger m m :=
  fun _ mod h hen => ⟨mod, h, hen⟩

lemma enBigger_trans {a b c : Registry} (h1 : enBigger a b)
    (h2 : enBigger b c) : enBigger a c := by
  intro k mod h hen
  obtain ⟨m2, h2', hen2⟩ := h1 k mod h hen
  exact h2 k m2 h2' hen2

lemma contains_iff_mem {α : Type} [BEq α] [LawfulBEq α] (v : List α) (x : α) :
    v.contains x = true ↔ x ∈ v := by
  induction v with
  | nil => simp
  | cons a t ih =>
    simp [List.contains_cons, Bool.or_eq_true, beq_iff_eq, ih,
      List.mem_cons]

lemma guard_false_cases {a b : Bool} (h : ¬((!a && !b) = true)) :
    a = true ∨ b = true := by
  cases a <;> cases b <;> simp_all

lemma enableFinish_sameGraph {id : String} {mod : Mod}
    {r x : Registry × List String × Nat}
    (h : enableFinish id mod r = some x) : sameGraph r.1 x.1 := by
  unfold enableFinish at h
  split at h
  · cases h
    intro k
    rw [regGet_regSet]
    by_cases hk : k = id
    · subst hk
      cases hg : regGet r.1 k with
      | none => simp
      | some x0 => simp [reRead, hg, gf]
    · rw [if_neg hk]
  · cases h
    exact sameGraph_refl _

lemma enableFinish_enBigger {id : String} {mod : Mod}
    {r x : Registry × List String × Nat}
    (h : enableFinish id mod r = some x) : enBigger r.1 x.1 := by
  unfold enableFinish at h
  split at h
  · cases h
    intro k mod0 hget hen
    by_cases hk : k = id
    · subst hk
      exact ⟨{ reRead r.1 k mod with
                 file_path := stripDisabledSuffix (reRead r.1 k mod).file_path,
                 enabled := some true },
             by rw [regGet_regSet, if_pos rfl, hget]; rfl, rfl⟩
    · exact ⟨mod0, by rw [regGet_regSet, if_neg hk]; exact hget, hen⟩
  · cases h
    exact enBigger_refl _

lemma enableFinish_visited {id : String} {mod : Mod}
    {r x : Registry × List String × Nat}
    (h : enableFinish id mod r = some x) :
    ∃ ext, x.2.1 = r.2.1 ++ ext := by
  unfold enableFinish at h
  split at h
  · cases h; exact ⟨[id], rfl⟩
  · cases h; exact ⟨[], by simp⟩

/-- A generic preservation lemma for the `wants` loop: if every
recursive call preserves a transitive relation `R`, so does the loop. -/
lemma depsLoop_rel {rec : Registry → String → List String →
    Option (Registry × List String × Nat)} {keep : String → Bool}
    (R : Registry → Registry → Prop)
    (hrefl : ∀ m, R m m)
    (htrans : ∀ a b c, R a b → R b c → R a c)
    (hrec : ∀ m id ch r, rec m id ch = some r → R m r.1) :
    ∀ deps m ch r, depsLoop rec keep m deps ch = some r → R m r.1 := by
  intro deps
  induction deps with
  | nil =>
    intro m ch r h
    simp only [depsLoop] at h
    cases h
    exact hrefl _
  | cons d ds ih =>
    intro m ch r h
    simp only [depsLoop] at h
    split at h
    · rw [Option.bind_eq_some] at h
      obtain ⟨r1, h1, h2⟩ := h
      rw [Option.bind_eq_some] at h2
      obtain ⟨r2, h21, h22⟩ := h2
      cases h22
      exact htrans _ _ _ (hrec _ _ _ _ h1) (ih _ _ r2 h21)
    · exact ih _ _ _ h

/-- Generic visited-list accumulation for the loop. -/
lemma depsLoop_visited {rec : Registry → String → List String →
    Option (Registry × List String × Nat)} {keep : String → Bool}
    (hrec : ∀ m id ch r, rec m id ch = some r → ∃ ext, r.2.1 = ch ++ ext) :
    ∀ deps m ch r, depsLoop rec keep m deps ch = some r →
      ∃ ext, r.2.1 = ch ++ ext := by
  intro deps
  induction deps with
  | nil =>
    intro m ch r h
    simp only [depsLoop] at h
    cases h
    exact ⟨[], by simp⟩
  | cons d ds ih =>
    intro m ch r h
    simp only [depsLoop] at h
    split at h
    · rw [Option.bind_eq_some] at h
      obtain ⟨r1, h1, h2⟩ := h
      rw [Option.bind_eq_some] at h2
      obtain ⟨r2, h21, h22⟩ := h2
      cases h22
      obtain ⟨e1, he1⟩ := hrec _ _ _ _ h1
      obtain ⟨e2, he2⟩ := ih _ _ r2 h21
      exact ⟨e1 ++ e2, by simp [he2, he1]⟩
    · exact ih _ _ _ h

lemma enable_sameGraph : ∀ fuel m id ch r,
    enableFuel fuel m id ch = some r → sameGraph m r.1 := by
  intro fuel
  induction fuel with
  | zero => intro m id ch r h; cases h
  | succ f ih =>
    intro m id ch r h
    simp only [enableFuel] at h
    split at h
    · cases h; exact sameGraph_refl _
    · rw [Option.bind_eq_some] at h
      obtain ⟨r1, h1, h2⟩ := h
      exact sameGraph_trans
        (depsLoop_rel sameGraph sameGraph_refl
          (fun a b c => sameGraph_trans)
          (fun a b c d hh => ih a b c d hh) _ _ _ _ h1)
        (enableFinish_sameGraph h2)

lemma enable_enBigger : ∀ fuel m id ch r,
    enableFuel fuel m id ch = some r → enBigger m r.1 := by
  intro fuel
  induction fuel with
  | zero => intro m id ch r h; cases h
  | succ f ih =>
    intro m id ch r h
    simp only [enableFuel] at h
    split at h
    · cases h; exact enBigger_refl _
    · rw [Option.bind_eq_some] at h
      obtain ⟨r1, h1, h2⟩ := h
      exact enBigger_trans
        (depsLoop_rel enBigger enBigger_refl
          (fun a b c => enBigger_trans)
          (fun a b c d hh => ih a b c d hh) _ _ _ _ h1)
        (enableFinish_enBigger h2)

lemma enable_visited : ∀ fuel m id ch r,
    enableFuel fuel m id ch = some r → ∃ ext, r.2.1 = ch ++ ext := by
  intro fuel
  induction fuel with
  | zero => intro m id ch r h; cases h
  | succ f ih =>
    intro m id ch r h
    simp only [enableFuel] at h
    split at h
    · cases h; exact ⟨[], by simp⟩
    · rw [Option.bind_eq_some] at h
      obtain ⟨r1, h1, h2⟩ := h
      obtain ⟨e1, he1⟩ :=
        depsLoop_visited (fun a b c d hh => ih a b c d hh) _ _ _ _ h1
      obtain ⟨e2, he2⟩ := enableFinish_visited h2
      exact ⟨e1 ++ e2, by simp [he2, he1]⟩

lemma enableFinish_novisit {id : String} {mod : Mod}
    {r1 r : Registry × List String × Nat}
    (h : enableFinish id mod r1 = some r) (hv : r.2.1 = r1.2.1) :
    r.1 = r1.1 ∧ r.2.2 = r1.2.2 := by
  unfold enableFinish at h
  split at h
  · cases h
    have hlen := congrArg List.length hv
    simp at hlen
  · cases h
    exact ⟨rfl, rfl⟩

/-- If the visited list did not grow over a loop, then no recursive
call changed anything: registry unchanged, zero changes, and every kept
dependency call was a complete no-op. -/
lemma depsLoop_novisit {rec : Registry → String → List String →
    Option (Registry × List String × Nat)} {keep : String → Bool}
    (hvis : ∀ m id ch r, rec m id ch = some r → ∃ ext, r.2.1 = ch ++ ext)
    (hnov : ∀ m id ch r, rec m id ch = some r → r.2.1 = ch →
      r.1 = m ∧ r.2.2 = 0) :
    ∀ deps m ch r, depsLoop rec keep m deps ch = some r → r.2.1 = ch →
      r.1 = m ∧ r.2.2 = 0 ∧
      (∀ d ∈ deps, keep d = true → rec m d ch = some (m, ch, 0)) := by
  intro deps
  induction deps with
  | nil =>
    intro m ch r h hv
    simp only [depsLoop] at h
    cases h
    exact ⟨rfl, rfl, fun d hd => absurd hd (List.not_mem_nil d)⟩
  | cons d ds ih =>
    intro m ch r h hv
    simp only [depsLoop] at h
    split at h
    · next hk =>
      rw [Option.bind_eq_some] at h
      obtain ⟨r1, h1, h2⟩ := h
      rw [Option.bind_eq_some] at h2
      obtain ⟨r2, h21, h22⟩ := h2
      cases h22
      obtain ⟨e1, he1⟩ := hvis _ _ _ _ h1
      obtain ⟨e2, he2⟩ :=
        depsLoop_visited hvis _ _ _ r2 h21
      have hch : r2.2.1 = ch := hv
      have he : e1 = [] ∧ e2 = [] := by
        have := hch
        rw [he2, he1] at this
        have hlen := congrArg List.length this
        simp at hlen
        exact hlen
      have hv1 : r1.2.1 = ch := by rw [he1, he.1, List.append_nil]
      obtain ⟨hm1, hc1⟩ := hnov _ _ _ _ h1 hv1
      have hv2 : r2.2.1 = r1.2.1 := by rw [hch, hv1]
      obtain ⟨hm2, hc2, hrest⟩ := ih _ _ r2 h21 hv2
      refine ⟨by rw [hm2, hm1], by rw [hc1, hc2], ?_⟩
      intro x hx hkx
      rcases List.mem_cons.mp hx with rfl | hx
      · have : r1 = (m, ch, 0) := by
          have : r1 = (r1.1, r1.2.1, r1.2.2) := rfl
          rw [this, hm1, hv1, hc1]
        rw [← this]
        exact h1
      · have := hrest x hx hkx
        rw [hm1, hv1] at this
        exact this
    · next hk =>
      obtain ⟨hm, hc, hrest⟩ := ih _ _ _ h hv
      refine ⟨hm, hc, ?_⟩
      intro x hx hkx
      rcases List.mem_cons.mp hx with rfl | hx
      · exact absurd hkx hk
      · exact hrest x hx hkx

lemma enable_novisit : ∀ fuel m id ch r,
    enableFuel fuel m id ch = some r → r.2.1 = ch →
    r.1 = m ∧ r.2.2 = 0 := by
  intro fuel
  induction fuel with
  | zero => intro m id ch r h _; cases h
  | succ f ih =>
    intro m id ch r h hv
    simp only [enableFuel] at h
    split at h
    · cases h
      exact ⟨rfl, rfl⟩
    · rw [Option.bind_eq_some] at h
      obtain ⟨r1, h1, h2⟩ := h
      obtain ⟨e1, he1⟩ :=
        depsLoop_visited (fun a b c d hh => enable_visited f a b c d hh)
          _ _ _ _ h1
      obtain ⟨e2, he2⟩ := enableFinish_visited h2
      have he : e1 = [] ∧ e2 = [] := by
        have h3 := hv
        rw [he2, he1] at h3
        have hlen := congrArg List.length h3
        simp at hlen
        exact hlen
      have hv1 : r1.2.1 = ch := by rw [he1, he.1, List.append_nil]
      have hv2 : r.2.1 = r1.2.1 := by rw [hv, hv1]
      obtain ⟨hm2, hc2⟩ := enableFinish_novisit h2 hv2
      obtain ⟨hm1, hc1, -⟩ :=
        depsLoop_novisit (fun a b c d hh => enable_visited f a b c d hh)
          (fun a b c d hh hvv => ih a b c d hh hvv) _ _ _ _ h1 hv1
      exact ⟨by rw [hm2, hm1], by rw [hc2, hc1]⟩

lemma sameGraph_get_none {m1 m2 : Registry} {k : String}
    (h : sameGraph m1 m2) (hg : regGet m1 k = none) : regGet m2 k = none := by
  have h2 := h k
  rw [hg] at h2
  cases hx : regGet m2 k with
  | none => rfl
  | some x => rw [hx] at h2; cases h2

lemma sameGraph_get_some {m1 m2 : Registry} {k : String} {mod : Mod}
    (h : sameGraph m1 m2) (hg : regGet m1 k = some mod) :
    ∃ mod2, regGet m2 k = some mod2 ∧ gf mod2 = gf mod := by
  have h2 := h k
  rw [hg] at h2
  cases hx : regGet m2 k with
  | none => rw [hx] at h2; cases h2
  | some x =>
    rw [hx] at h2
    exact ⟨x, rfl, Option.some.inj h2⟩

/-- If the guard is refuted, `enableFinish` changes nothing. -/
lemma enableFinish_noflip {id : String} {mod : Mod}
    {r : Registry × List String × Nat}
    (hguard : r.2.1.contains id = true ∨
      ((reRead r.1 id mod).enabled == some true) = true) :
    enableFinish id mod r = some (r.1, r.2.1, r.2.2) := by
  have hfalse : (!r.2.1.contains id &&
      !((reRead r.1 id mod).enabled == some true)) = false := by
    rcases hguard with h | h
    · simp [(contains_iff_mem _ _).mp h]
    · simp [eq_of_beq h]
  unfold enableFinish
  simp only [hfalse, Bool.false_eq_true, if_false]

/-- If every kept call is a complete no-op, the loop is a no-op. -/
lemma depsLoop_all_noop {rec : Registry → String → List String →
    Option (Registry × List String × Nat)} {keep : String → Bool} :
    ∀ deps m v, (∀ d ∈ deps, keep d = true → rec m d v = some (m, v, 0)) →
      depsLoop rec keep m deps v = some (m, v, 0) := by
  intro deps
  induction deps with
  | nil => intro m v _; rfl
  | cons d ds ih =>
    intro m v hall
    simp only [depsLoop]
    cases hk : keep d with
    | true =>
      rw [if_pos rfl, hall d (List.mem_cons_self _ _) hk, Option.some_bind,
        ih m v (fun x hx hkx => hall x (List.mem_cons_of_mem _ hx) hkx),
        Option.some_bind]
      rfl
    | false =>
      rw [if_neg (by simp)]
      exact ih m v (fun x hx hkx => hall x (List.mem_cons_of_mem _ hx) hkx)

/-- Transport of a complete no-op run to a registry with the same
graph, at least as many enabled records, and a larger visited list. -/
lemma enable_noop_mono : ∀ fuel m1 v1 id m2 v2,
    sameGraph m1 m2 → enBigger m1 m2 → (∀ x ∈ v1, x ∈ v2) →
    enableFuel fuel m1 id v1 = some (m1, v1, 0) →
    enableFuel fuel m2 id v2 = some (m2, v2, 0) := by
  intro fuel
  induction fuel with
  | zero => intro m1 v1 id m2 v2 _ _ _ h; cases h
  | succ f ih =>
    intro m1 v1 id m2 v2 hsg hen hsub h
    simp only [enableFuel] at h ⊢
    split at h
    · next hg =>
      rw [sameGraph_get_none hsg hg]
    · next mod1 hg =>
      rw [Option.bind_eq_some] at h
      obtain ⟨r1, h1, h2⟩ := h
      obtain ⟨e1, he1⟩ :=
        depsLoop_visited (fun a b c d hh => enable_visited f a b c d hh)
          _ _ _ _ h1
      obtain ⟨e2, he2⟩ := enableFinish_visited h2
      have hnil : e1 = [] ∧ e2 = [] := by
        have h4 : v1 = r1.2.1 ++ e2 := he2
        have h3 := h4
        rw [he1] at h3
        have hlen := congrArg List.length h3
        simp at hlen
        exact hlen
      have hv1 : r1.2.1 = v1 := by rw [he1, hnil.1, List.append_nil]
      obtain ⟨hm1, hc1, hdeps⟩ :=
        depsLoop_novisit (fun a b c d hh => enable_visited f a b c d hh)
          (fun a b c d hh hvv => enable_novisit f a b c d hh hvv)
          _ _ _ _ h1 hv1
      -- guard facts: the finish step did not flip (it would append `id`)
      have hguard : r1.2.1.contains id = true ∨
          ((reRead r1.1 id mod1).enabled == some true) = true := by
        unfold enableFinish at h2
        split at h2
        · exfalso
          have hv := congrArg (fun t => t.2.1) (Option.some.inj h2)
          simp only at hv
          rw [hv1] at hv
          have hlen := congrArg List.length hv
          simp at hlen
        · next hG => exact guard_false_cases hG
      obtain ⟨mod2, hg2, hgf⟩ := sameGraph_get_some hsg hg
      have hwants : mod2.wants.getD [] = mod1.wants.getD [] :=
        congrArg (fun t => t.2.1) hgf
      have hloop2 : depsLoop (fun m1 dep ch1 => enableFuel f m1 dep ch1)
          (fun _ => true) m2 (mod2.wants.getD []) v2 = some (m2, v2, 0) := by
        rw [hwants]
        refine depsLoop_all_noop _ _ _ ?_
        intro d hd _
        have hcall := hdeps d hd rfl
        exact ih m1 v1 d m2 v2 hsg hen hsub hcall
      simp only [hg2]
      rw [hloop2, Option.some_bind]
      have hguard2 : v2.contains id = true ∨
          ((reRead m2 id mod2).enabled == some true) = true := by
        rcases hguard with hc | he2'
        · left
          rw [hv1] at hc
          exact (contains_iff_mem v2 id).mpr
            (hsub id ((contains_iff_mem v1 id).mp hc))
        · right
          rw [hm1] at he2'
          have hre : reRead m1 id mod1 = mod1 := by
            unfold reRead; rw [hg]; rfl
          rw [hre] at he2'
          have hen1 : mod1.enabled = some true := by
            exact eq_of_beq he2'
          obtain ⟨mod2', hg2', hen2⟩ := hen id mod1 hg hen1
          have : mod2' = mod2 := by
            rw [hg2] at hg2'
            exact (Option.some.inj hg2').symm
          subst this
          unfold reRead
          rw [hg2]
          simp [hen2]
      have := @enableFinish_noflip id mod2 (m2, v2, 0) hguard2
      exact this

/-- After a loop run, re-running the same loop on any later state (same
graph, no record disabled since, visited only grown) is a no-op. -/
lemma depsLoop_post_noop (f : Nat)
    (hS : ∀ m id v r, enableFuel f m id v = some r →
      enableFuel f r.1 id r.2.1 = some (r.1, r.2.1, 0)) :
    ∀ deps m v r, depsLoop (fun m1 dep ch1 => enableFuel f m1 dep ch1)
        (fun _ => true) m deps v = some r →
      ∀ m2 v2, sameGraph r.1 m2 → enBigger r.1 m2 → (∀ x ∈ r.2.1, x ∈ v2) →
        depsLoop (fun m1 dep ch1 => enableFuel f m1 dep ch1)
          (fun _ => true) m2 deps v2 = some (m2, v2, 0) := by
  intro deps
  induction deps with
  | nil => intro m v r h m2 v2 _ _ _; rfl
  | cons d ds ih =>
    intro m v r h m2 v2 hsg hen hsub
    simp only [depsLoop] at h
    rw [if_pos trivial] at h
    rw [Option.bind_eq_some] at h
    obtain ⟨r1, h1, h2⟩ := h
    rw [Option.bind_eq_some] at h2
    obtain ⟨r2, h21, h22⟩ := h2
    cases h22
    -- relations along the remaining loop
    have hsg2 : sameGraph r1.1 r2.1 :=
      depsLoop_rel sameGraph sameGraph_refl (fun a b c => sameGraph_trans)
        (fun a b c d hh => enable_sameGraph f a b c d hh) _ _ _ r2 h21
    have hen2 : enBigger r1.1 r2.1 :=
      depsLoop_rel enBigger enBigger_refl (fun a b c => enBigger_trans)
        (fun a b c d hh => enable_enBigger f a b c d hh) _ _ _ r2 h21
    obtain ⟨e2, he2⟩ :=
      depsLoop_visited (fun a b c d hh => enable_visited f a b c d hh)
        _ _ _ r2 h21
    -- head call is a no-op at its own post state, transported to m2/v2
    have hhead := hS _ _ _ _ h1
    have hheadm2 : enableFuel f m2 d v2 = some (m2, v2, 0) :=
      enable_noop_mono f r1.1 r1.2.1 d m2 v2
        (sameGraph_trans hsg2 hsg) (enBigger_trans hen2 hen)
        (fun x hx => hsub x (by rw [he2]; exact List.mem_append_left _ hx))
        hhead
    have hrest := ih _ _ r2 h21 m2 v2 hsg hen hsub
    simp only [depsLoop]
    rw [if_pos trivial, hheadm2, Option.some_bind, hrest, Option.some_bind]
    rfl

/-- An `enable_mod_deep` run immediately followed by a second run with
the produced registry and visited list: the second run is a complete
no-op returning 0 changes. -/
lemma enable_idem : ∀ fuel m id v r, enableFuel fuel m id v = some r →
    enableFuel fuel r.1 id r.2.1 = some (r.1, r.2.1, 0) := by
  intro fuel
  induction fuel with
  | zero => intro m id v r h; cases h
  | succ f ih =>
    intro m id v r h
    simp only [enableFuel] at h ⊢
    split at h
    · next hg =>
      cases h
      simp only [hg]
    · next mod hg =>
      rw [Option.bind_eq_some] at h
      obtain ⟨r1, h1, h2⟩ := h
      have hsgf : sameGraph r1.1 r.1 := enableFinish_sameGraph h2
      have henf : enBigger r1.1 r.1 := enableFinish_enBigger h2
      obtain ⟨ef, hef⟩ := enableFinish_visited h2
      have hsgm : sameGraph m r.1 :=
        sameGraph_trans
          (depsLoop_rel sameGraph sameGraph_refl
            (fun a b c => sameGraph_trans)
            (fun a b c d hh => enable_sameGraph f a b c d hh) _ _ _ _ h1)
          hsgf
      obtain ⟨mod2, hg2, hgf2⟩ := sameGraph_get_some hsgm hg
      have hwants : mod2.wants.getD [] = mod.wants.getD [] :=
        congrArg (fun t => t.2.1) hgf2
      have hloop2 := depsLoop_post_noop f (fun a b c d hh => ih a b c d hh)
        _ _ _ _ h1 r.1 r.2.1 hsgf henf
        (fun x hx => by rw [hef]; exact List.mem_append_left _ hx)
      have hguard : r.2.1.contains id = true ∨
          ((reRead r.1 id mod2).enabled == some true) = true := by
        unfold enableFinish at h2
        split at h2
        · left
          have hr := (Option.some.inj h2)
          have hv : r.2.1 = r1.2.1 ++ [id] :=
            (congrArg (fun t => t.2.1) hr).symm
          rw [hv]
          exact (contains_iff_mem _ _).mpr
            (List.mem_append_right _ (List.mem_singleton.mpr rfl))
        · next hG =>
          have hr := (Option.some.inj h2)
          have hv1 : r.1 = r1.1 := (congrArg (fun t => t.1) hr).symm
          rcases guard_false_cases hG with hcont | hen1
          · left
            have hv : r.2.1 = r1.2.1 := (congrArg (fun t => t.2.1) hr).symm
            rw [hv]
            exact hcont
          · right
            have hgr1 : regGet r1.1 id = some mod2 := by
              rw [← hv1]; exact hg2
            have hre1 : reRead r1.1 id mod = mod2 := by
              unfold reRead; rw [hgr1]; rfl
            have hre2 : reRead r.1 id mod2 = mod2 := by
              unfold reRead; rw [hg2]; rfl
            rw [hre2]
            rw [hre1] at hen1
            exact hen1
      simp only [hg2]
      rw [hwants, hloop2, Option.some_bind]
      exact @enableFinish_noflip _ _ (r.1, r.2.1, 0) hguard

/-- Claim C9: if an `enable_mod_deep id` call has completed within some
recursion-depth bound (in particular whenever the `wants` edges
reachable from `id` are acyclic) producing registry `mp`, visited list
`vp` and some change count, and `id`'s record is enabled in `mp`, then
a second call with the same bound, the produced registry and the same
(shared) visited list returns 0 changes and leaves every record —
including every `enabled` flag and `file_path` — unchanged. -/
theorem c9_enable_idempotent (fuel : Nat) (m : Registry) (id : String)
    (v : List String) (mp : Registry) (vp : List String) (c : Nat)
    (hrun : enableFuel fuel m id v = some (mp, vp, c))
    (mod : Mod) (hmod : regGet mp id = some mod)
    (hen : mod.enabled = some true) :
    enableFuel fuel mp id vp = some (mp, vp, 0) :=
  enable_idem fuel m id v (mp, vp, c) hrun

/-! Witness registry for C9: both records start disabled, `A` wants
`B`; the first run enables both, the second is a no-op. -/

def c9ModA : Mod :=
  { default_mod_object with
      wants := some ["B"]
      wanted_by := some []
      enabled := some false
      file_path := "mods/A.jar.disabled" }

def c9ModB : Mod :=
  { default_mod_object with
      wants := some []
      wanted_by := some ["A"]
      enabled := some false
      file_path := "mods/B.jar.disabled" }

def c9Reg : Registry := [("A", c9ModA), ("B", c9ModB)]

def c9ModAEn : Mod :=
  { c9ModA with enabled := some true, file_path := "mods/A.jar" }

def c9ModBEn : Mod :=
  { c9ModB with enabled := some true, file_path := "mods/B.jar" }

def c9RegAfter : Registry := [("A", c9ModAEn), ("B", c9ModBEn)]

/-- Witness for C9 at a concrete acyclic registry: the first
`enable_mod_deep "A"` run completes with fuel 3 making 2 changes, `A`
is then enabled, and the second run with the same visited list returns
the untouched registry and 0 changes. -/
theorem c9_enable_idempotent_witness :
    enableFuel 3 c9Reg "A" [] = some (c9RegAfter, ["B", "A"], 2) ∧
    regGet c9RegAfter "A" = some c9ModAEn ∧
    c9ModAEn.enabled = some true ∧
    enableFuel 3 c9RegAfter "A" ["B", "A"] = some (c9RegAfter, ["B", "A"], 0) :=
  ⟨by decide, by decide, by decide,
    c9_enable_idempotent 3 c9Reg "A" [] c9RegAfter ["B", "A"] 2 (by decide)
      c9ModAEn (by decide) (by decide)⟩

/-! ## Claim C7: `filterForFaultyDependencies`
(src/src/utils/mods.ts, lines 584-616) -/

/-- JS `dep.includes(',')`. -/
def containsComma (s : String) : Bool :=
  s.data.contains ','

/-- Modelled from the spec: `dedup_array` is imported from `./utils`
but that module is not among the provided sources; spec §4.1(d) says it
must "deduplicate case-insensitively while preserving first-seen
casing".  `seen` collects the lowercased keys already kept. -/
def dedupCIAux (seen : List (List Char)) : List String → List String
  | [] => []
  | x :: xs =>
    if seen.contains (lc x) then dedupCIAux seen xs
    else x :: dedupCIAux (lc x :: seen) xs

/-- Modelled from the spec: case-insensitive deduplication preserving
the first-seen casing (see `dedupCIAux`). -/
def dedup_array (l : List String) : List String :=
  dedupCIAux [] l

/-- The first loop of `filterForFaultyDependencies` (lines 587-596):
strip the `@version` qualifier from each entry, then push the
comma-split parts (or the entry itself when it has no comma). -/
def splitLoop : List String → List String
  | [] => []
  | dep :: rest =>
    let d := stripVersion dep
    (if containsComma d then splitCommas d else [d]) ++ splitLoop rest

/-- The second loop of `filterForFaultyDependencies` (lines 597-611):
skip forge/FML references, references to the mod's own id, and
references whose lowercasing matches an `other_mod_ids` entry; push the
surviving entries trimmed. -/
def filterLoop (mod_id : String) (other_mod_ids : List String) :
    List String → List String
  | [] => []
  | dep :: rest =>
    if forgeMatch dep then filterLoop mod_id other_mod_ids rest
    else if lc dep == lc mod_id then filterLoop mod_id other_mod_ids rest
    else if (other_mod_ids.find? (fun o => lc o == lc dep)).isSome then
      filterLoop mod_id other_mod_ids rest
    else trimStr dep :: filterLoop mod_id other_mod_ids rest

/-- `filterForFaultyDependencies` (src/src/utils/mods.ts,
lines 584-616). -/
def filterForFaultyDependencies (wants : List String) (mod_id : String)
    (other_mod_ids : List String) : List String :=
  dedup_array (filterLoop mod_id other_mod_ids (splitLoop wants))

/-- The predicate deciding whether an entry survives the second loop. -/
def keepDep (mod_id : String) (other_mod_ids : List String)
    (dep : String) : Bool :=
  !forgeMatch dep && !(lc dep == lc mod_id) &&
    !(other_mod_ids.find? (fun o => lc o == lc dep)).isSome

lemma splitCommas_no_comma {s : String} (h : containsComma s = false) :
    splitCommas s = [s] := by
  unfold splitCommas
  unfold containsComma at h
  have : splitChars (fun c => c == ',') s.data = [s.data] := by
    generalize s.data = l at h ⊢
    induction l with
    | nil => rfl
    | cons c cs ih =>
      simp only [List.contains_cons, Bool.or_eq_false_iff] at h
      simp only [splitChars]
      rw [ih h.2]
      have hc : (c == ',') = false := by
        cases hcc : c == ',' with
        | false => rfl
        | true =>
          have heq : c = ',' := eq_of_beq hcc
          subst heq
          simp at h
      simp [hc]
  rw [this]
  rfl

lemma splitLoop_eq (ws : List String) :
    splitLoop ws = ws.flatMap (fun dep => splitCommas (stripVersion dep)) := by
  induction ws with
  | nil => rfl
  | cons dep rest ih =>
    simp only [splitLoop, List.flatMap_cons, ih]
    cases hc : containsComma (stripVersion dep) with
    | true => simp
    | false => rw [splitCommas_no_comma hc]; simp

lemma filterLoop_eq (mod_id : String) (other : List String)
    (l : List String) :
    filterLoop mod_id other l =
      (l.filter (keepDep mod_id other)).map trimStr := by
  induction l with
  | nil => rfl
  | cons dep rest ih =>
    simp only [filterLoop]
    cases hf : forgeMatch dep with
    | true => simp [List.filter_cons, keepDep, hf, ih]
    | false =>
      cases hs : lc dep == lc mod_id with
      | true => simp [List.filter_cons, keepDep, hf, hs, ih]
      | false =>
        cases ho : (other.find? (fun o => lc o == lc dep)).isSome with
        | true => simp [List.filter_cons, keepDep, hf, hs, ho, ih]
        | false => simp [List.filter_cons, keepDep, hf, hs, ho, ih]

lemma mem_dedupCIAux {x : String} :
    ∀ seen l, x ∈ dedupCIAux seen l → ¬ seen.contains (lc x) = true := by
  intro seen l
  induction l generalizing seen with
  | nil => intro h; cases h
  | cons a t ih =>
    intro h
    simp only [dedupCIAux] at h
    split at h
    · exact ih seen h
    · rcases List.mem_cons.mp h with rfl | h
      · next hns => exact hns
      · intro hc
        have h2 := ih (lc a :: seen) h
        exact h2 (by
          simp only [List.contains_cons, Bool.or_eq_true]
          right
          exact hc)

lemma dedupCIAux_pairwise :
    ∀ seen l, (dedupCIAux seen l).Pairwise (fun a b => lc a ≠ lc b) := by
  intro seen l
  induction l generalizing seen with
  | nil => exact List.Pairwise.nil
  | cons a t ih =>
    simp only [dedupCIAux]
    split
    · exact ih seen
    · refine List.Pairwise.cons ?_ (ih (lc a :: seen))
      intro b hb heq
      have h2 := mem_dedupCIAux _ _ hb
      exact h2 (by
        simp only [List.contains_cons, Bool.or_eq_true]
        left
        exact beq_iff_eq.mpr heq.symm)

/-- Claim C7 counterexample: the source strips the `@version` qualifier
before splitting on commas, and the qualifier match runs to the end of
the whole entry, so `"a@1,b@2"` contributes only `a` — not both `a`
and `b` as the claim states. -/
theorem c7_counterexample :
    filterForFaultyDependencies ["a@1,b@2"] "mod" [] = ["a"] ∧
    "b" ∉ filterForFaultyDependencies ["a@1,b@2"] "mod" [] := by
  constructor
  · decide
  · decide

/-- Claim C7 (amended): `filterForFaultyDependencies` equals the
pipeline that (a) strips from the first `@` to the end of each raw
entry and then splits the result on commas (so `"a@1,b@2"` contributes
only `a`, while `"a,b"` contributes both); (b, c) keeps exactly the
entries that do not match the Forge/FML pattern, are not the mod's own
id case-insensitively, and do not match an `other_mod_ids` entry
case-insensitively; trims each survivor; and (d) deduplicates
case-insensitively preserving first-seen casing — in particular the
output never has two entries with the same lowercasing. -/
theorem c7_filter_pipeline (wants : List String) (mod_id : String)
    (other_mod_ids : List String) :
    filterForFaultyDependencies wants mod_id other_mod_ids =
      dedup_array
        (((wants.flatMap (fun dep => splitCommas (stripVersion dep))).filter
            (keepDep mod_id other_mod_ids)).map trimStr) ∧
    (filterForFaultyDependencies wants mod_id other_mod_ids).Pairwise
      (fun a b => lc a ≠ lc b) := by
  constructor
  · unfold filterForFaultyDependencies
    rw [splitLoop_eq, filterLoop_eq]
  · exact dedupCIAux_pairwise [] _

/-! ## Claim C6: the identity extractor
(`parse_mod_details` / `extract_modinfos`,
src/src/utils/mods.ts, lines 316-539)

JavaScript runtime values flowing out of `JSON.parse` are embedded as
`JVal`; property access on `null`/`undefined` and string methods
applied to non-strings raise `TypeError`, embedded as `Except Unit`.
The zip reads and the regex engine are modelled as oracle inputs
(`ParseInput`): the parsed-or-raw `mcmod.info` value, the capture list
of the `"modid": "..."` scan, the filename-pattern groups, and the
`@Mod`-annotation results of `get_details_from_mainclass`. -/

inductive JVal where
  | jundef
  | jnull
  | jbool (b : Bool)
  | jnum (n : Int)
  | jstr (s : String)
  | jarr (l : List JVal)
  | jobj (fields : List (String × JVal))

/-- JS truthiness (`undefined`, `null`, `false`, `0`, `""` are falsy;
arrays and objects are truthy even when empty). -/
def truthy : JVal → Bool
  | JVal.jundef => false
  | .jnull => false
  | .jbool b => b
  | .jnum n => !(n == 0)
  | .jstr s => !(s == "")
  | .jarr _ => true
  | .jobj _ => true

def isStr : JVal → Bool
  | .jstr _ => true
  | _ => false

def isArr : JVal → Bool
  | .jarr _ => true
  | _ => false

def jlookup : List (String × JVal) → String → JVal
  | [], _ => JVal.jundef
  | p :: t, k => if k = p.1 then p.2 else jlookup t k

/-- JS property access `v[k]`: `TypeError` on `null`/`undefined`
receivers, `undefined` for missing fields and on boxed primitives. -/
def jfield : JVal → String → Except Unit JVal
  | JVal.jundef, _ => .error ()
  | .jnull, _ => .error ()
  | .jobj fs, k => .ok (jlookup fs k)
  | _, _ => .ok JVal.jundef

/-- JS array indexing (out of range gives `undefined`). -/
def jindex (l : List JVal) (i : Nat) : JVal :=
  (l.get? i).getD JVal.jundef

def elemsOf : JVal → List JVal
  | .jarr l => l
  | _ => []

def lengthOf : JVal → Nat
  | .jarr l => l.length
  | _ => 0

/-- JS string coercion for a string-method call: throws on anything
that is not a string. -/
def asStr : JVal → Except Unit String
  | .jstr s => .ok s
  | _ => .error ()

/-- The check `v && typeof v === 'string' && v.length > 0`. -/
def getNonemptyStr : JVal → Option String
  | .jstr s => if s ≠ "" then some s else none
  | _ => none

/-- `.filter(e => e && typeof e === 'string').map(e => e)` over already
extracted `modid` values (the `as string[]` cast keeps the strings). -/
def pickModids (ms : List JVal) : List String :=
  ms.filterMap (fun m =>
    match m with
    | .jstr s => if s ≠ "" then some s else none
    | _ => none)

/-- `s.match(/(\d)/)` is non-null. -/
def hasDigit (s : String) : Bool :=
  s.data.any Char.isDigit

/-- `s.toLowerCase().includes('version')`. -/
def containsVersionWord (s : String) : Bool :=
  containsSub "version".data (lc s)

/-- Case-insensitive prefix test against a lowercase pattern. -/
def isPrefixCI : List Char → List Char → Bool
  | [], _ => true
  | _ :: _, [] => false
  | p :: ps, c :: cs => (c.toLower == p) && isPrefixCI ps cs

/-- The mandatory `1\.7\.10[-+]?` part of the legacy-version pattern,
with the greedy optional trailing separator. -/
def legacyCore (l : List Char) : Option (List Char) :=
  if isPrefixCI "1.7.10".data l then
    match l.drop 6 with
    | c :: rest => if c == '-' || c == '+' then some rest else some (c :: rest)
    | [] => some []
  else none

/-- `(mc)?1\.7\.10[-+]?` with greedy, backtracking `(mc)?`. -/
def legacyTail (l : List Char) : Option (List Char) :=
  match l with
  | c1 :: c2 :: rest =>
    if c1.toLower == 'm' && c2.toLower == 'c' then
      match legacyCore rest with
      | some r => some r
      | none => legacyCore l
    else legacyCore l
  | _ => legacyCore l

/-- `[-+]?(mc)?1\.7\.10[-+]?` at one position, with greedy,
backtracking `[-+]?`. -/
def legacyAt (l : List Char) : Option (List Char) :=
  match l with
  | c :: rest =>
    if c == '-' || c == '+' then
      match legacyTail rest with
      | some r => some r
      | none => legacyTail (c :: rest)
    else legacyTail (c :: rest)
  | [] => legacyTail []

def strip1710Go : List Char → List Char
  | [] => []
  | c :: cs =>
    match legacyAt (c :: cs) with
    | some rest => rest
    | none => c :: strip1710Go cs

/-- `version.replace(/[-+]?(mc)?1\.7\.10[-+]?/i, '')`: delete the
leftmost match of the legacy-runtime-version pattern. -/
def strip1710 (s : String) : String :=
  ⟨strip1710Go s.data⟩

/-- The oracle inputs of one `parse_mod_details(file_path)` call. -/
structure ParseInput where
  file_path : String
  /-- `mcmod.info` after `extract_file_from_zip` + `JSON.parse`:
  `none` when the entry was unreadable or the raw text empty;
  `some (.jstr raw)` both for a JSON string value and for unparsable
  non-empty raw text (the two are indistinguishable downstream). -/
  info_json : Option JVal
  /-- capture groups of the `/"modid":\s*"(.*?)"/g` scan of the raw
  text (regex-engine oracle). -/
  modid_matches : List String
  /-- named groups `(middle, post)` of the filename pattern when it
  matched (regex-engine oracle). -/
  fname : Option (String × String)
  /-- `main_deps` from `get_details_from_mainclass` (zip + bytecode
  scan oracle). -/
  main_deps : List String
  /-- `main_version` from `get_details_from_mainclass`. -/
  main_version : Option String

structure ParseResult where
  id : Option String
  other_mod_ids : Option (List String)
  wants : List String
  version : Option String
  state : Bool
deriving DecidableEq, Repr

/-- The per-entry-list extraction shared verbatim by the top-level
array branch (mods.ts lines 385-427) and the `modList` branch (lines
428-474): the first entry is authoritative for `modid`/`version`,
later entries contribute `other_mod_ids` and their
`dependencies`/`requiredMods` lists. -/
def parseEntryList (l : List JVal) :
    Except Unit
      (Option String × Option (List String) × List JVal × Option String) := do
  let first0 := jindex l 0
  let m0 ← jfield first0 "modid"
  let idPart ←
    match getNonemptyStr m0 with
    | some s =>
      if l.length > 1 then do
        let ms ← (l.drop 1).mapM (fun e => jfield e "modid")
        pure (some s, some (pickModids ms))
      else
        pure (some s, (none : Option (List String)))
    | none => pure ((none : Option String), (none : Option (List String)))
  let rm ← jfield first0 "requiredMods"
  let wants0 ←
    if truthy rm && isArr rm && lengthOf rm > 0 then
      pure (elemsOf rm)
    else do
      let dp ← jfield first0 "dependencies"
      if truthy dp && isArr dp && lengthOf dp > 0 then
        pure (elemsOf dp)
      else
        pure ([] : List JVal)
  let wants1 ←
    if l.length > 1 then do
      let ds ← (l.drop 1).mapM (fun e => jfield e "dependencies")
      let rs ← (l.drop 1).mapM (fun e => jfield e "requiredMods")
      pure (wants0 ++
        (ds.filter (fun d => truthy d && isArr d)).flatMap elemsOf ++
        (rs.filter (fun d => truthy d && isArr d)).flatMap elemsOf)
    else
      pure wants0
  let vv ← jfield first0 "version"
  pure (idPart.1, idPart.2, wants1, getNonemptyStr vv)

/-- Everything `parse_mod_details` computes before the final
dependency cleanup: resolved id, alternate ids, raw `wants` values,
resolved version and enabled state. -/
structure StageOut where
  mod_id : Option String
  other_mod_ids : Option (List String)
  wantsJ : List JVal
  version : Option String
  state : Bool

/-- JS truthiness of an optional string. -/
def truthyStr : Option String → Bool
  | some s => s ≠ ""
  | none => false

/-- `parse_mod_details` up to (and including) the version-resolution
policy (mods.ts lines 351-528). -/
def parseStages (inp : ParseInput) : Except Unit StageOut := do
  let mod_state := !(endsDisabled inp.file_path)
  -- structured metadata (lines 384-475)
  let stage1 ←
    match inp.info_json with
    | some v =>
      match v with
      | .jarr l =>
        if truthy (jindex l 0) then
          parseEntryList l
        else
          pure ((none : Option String), (none : Option (List String)),
            ([] : List JVal), (none : Option String))
      | .jnull => do
        -- `typeof null === 'object'`, so the `else if` dereferences
        -- `info_json.modList` on `null`: TypeError
        let _ ← jfield .jnull "modList"
        pure ((none : Option String), (none : Option (List String)),
          ([] : List JVal), (none : Option String))
      | .jobj fs => do
        let ml ← jfield (.jobj fs) "modList"
        if truthy ml && isArr ml && truthy (jindex (elemsOf ml) 0) then
          parseEntryList (elemsOf ml)
        else
          pure ((none : Option String), (none : Option (List String)),
            ([] : List JVal), (none : Option String))
      | _ =>
        -- not `typeof 'object'` (boolean / number / string): skipped
        pure ((none : Option String), (none : Option (List String)),
          ([] : List JVal), (none : Option String))
    | none =>
      pure ((none : Option String), (none : Option (List String)),
        ([] : List JVal), (none : Option String))
  let mod_id1 := stage1.1
  let other1 := stage1.2.1
  let wantsJ := stage1.2.2.1
  let version1 := stage1.2.2.2
  -- permissive textual scan / filename fallback (lines 478-505)
  let isStrInfo :=
    match inp.info_json with
    | some (.jstr _) => true
    | _ => false
  let idPart2 :=
    if isStrInfo && mod_id1.isNone then
      let mms := inp.modid_matches
      if mms.length > 0 then
        let m := mms.headD ""
        let mod_id2 := if m ≠ "" then some m else mod_id1
        let other2 :=
          if mms.length > 1 then
            some ((mms.drop 1).filter (fun x => x ≠ ""))
          else other1
        (mod_id2, other2)
      else (mod_id1, other1)
    else if inp.info_json.isNone || mod_id1.isNone then
      match inp.fname with
      | some (middle, _) =>
        (if middle ≠ "" then some middle else mod_id1, other1)
      | none => (mod_id1, other1)
    else (mod_id1, other1)
  let mod_id2 := idPart2.1
  let other2 := idPart2.2
  -- version resolution policy (lines 511-528)
  let v1 :=
    match version1 with
    | some s =>
      if s ≠ "" ∧ ¬(hasDigit s = true) ∧ containsVersionWord s = true
      then none else some s
    | none => none
  let fpost :=
    match inp.fname with
    | some (_, post) => if post ≠ "" then some post else none
    | none => none
  let v2 :=
    if v1 = none ∧ truthyStr inp.main_version = true then inp.main_version
    else if v1 = none ∧ fpost.isSome then fpost
    else v1
  let v3 :=
    match v2 with
    | some s =>
      let possible := strip1710 s
      if possible.length < s.length ∧ possible.length > 1 ∧
          hasDigit possible = true then
        some possible
      else if possible.length = 0 ∧ fpost.isSome then fpost
      else some s
    | none => none
  pure { mod_id := mod_id2, other_mod_ids := other2, wantsJ := wantsJ,
         version := v3, state := mod_state }

/-- The final dependency cleanup of `parse_mod_details` (mods.ts lines
530-538): when an id was resolved, run every raw `wants` entry and the
`@Mod`-annotation dependencies through `filterForFaultyDependencies`
(each entry is hit by `String.replace` first, so a non-string entry
raises `TypeError`); otherwise drop the collected `wants` entirely. -/
def finishParse (inp : ParseInput) (so : StageOut) :
    Except Unit ParseResult :=
  match so.mod_id with
  | some s =>
    if s ≠ "" then
      (List.mapM asStr (so.wantsJ ++ inp.main_deps.map JVal.jstr)).bind
        (fun ws =>
          .ok { id := some s, other_mod_ids := so.other_mod_ids,
                wants := filterForFaultyDependencies ws s
                  (so.other_mod_ids.getD []),
                version := so.version, state := so.state })
    else
      .ok { id := some s, other_mod_ids := so.other_mod_ids, wants := [],
            version := so.version, state := so.state }
  | none =>
    .ok { id := none, other_mod_ids := so.other_mod_ids, wants := [],
          version := so.version, state := so.state }

/-- `parse_mod_details` (src/src/utils/mods.ts, lines 344-539). -/
def parse_mod_details (inp : ParseInput) : Except Unit ParseResult :=
  (parseStages inp).bind (finishParse inp)

/-- The `mod_object_unsafe` built by `extract_modinfos` for one parsed
archive (mods.ts lines 321-330). -/
def mkUnsafeRec (fp : String) (i : String) (res : ParseResult) : ModUnsafe :=
  { mod_id := i, other_mod_ids := res.other_mod_ids,
    wants := some res.wants, enabled := res.state, file_path := fp,
    us_version := res.version, us_last_updated_at := none }

/-- `extract_modinfos` (src/src/utils/mods.ts, lines 316-337): parse
each archive; a resolved id yields a map entry keyed by the file path,
an unresolved id is skipped with a warning; an exception from
`parse_mod_details` propagates and aborts the whole pass. -/
def extract_modinfos :
    List (String × ParseInput) → Except Unit (List (String × ModUnsafe))
  | [] => .ok []
  | (fp, inp) :: rest =>
    (parse_mod_details inp).bind fun res =>
      (extract_modinfos rest).bind fun tail =>
        match res.id with
        | some i => .ok ((fp, mkUnsafeRec fp i res) :: tail)
        | none => .ok tail

lemma except_bind_ok {α β : Type} {e : Except Unit α}
    {f : α → Except Unit β} {b : β} (h : e.bind f = .ok b) :
    ∃ a, e = .ok a ∧ f a = .ok b := by
  cases e with
  | error u => cases h
  | ok a => exact ⟨a, rfl, h⟩

/-- A `parse_mod_details` input whose `mcmod.info` is the JSON literal
`null`: `typeof null === 'object'` passes the outer check and the
`else if` dereferences `null.modList`. -/
def c6BadInput : ParseInput :=
  { file_path := "mods/broken.jar", info_json := some .jnull,
    modid_matches := [], fname := none, main_deps := [],
    main_version := none }

/-- A well-formed archive whose metadata resolves id `alpha` wanting
`beta`. -/
def c6Good : ParseInput :=
  { file_path := "mods/good.jar",
    info_json := some (.jarr [.jobj
      [("modid", .jstr "alpha"), ("requiredMods", .jarr [.jstr "beta"])]]),
    modid_matches := [], fname := none, main_deps := [],
    main_version := none }

/-- An archive with no metadata, no filename match and no annotation:
total failure, id unresolvable. -/
def c6NoId : ParseInput :=
  { file_path := "mods/noid.jar", info_json := none, modid_matches := [],
    fname := none, main_deps := ["x"], main_version := none }

def c6NoIdRes : ParseResult :=
  { id := none, other_mod_ids := none, wants := [], version := none,
    state := true }

def c6GoodRes : ParseResult :=
  { id := some "alpha", other_mod_ids := none, wants := ["beta"],
    version := none, state := true }

def c6Files : List (String × ParseInput) :=
  [("mods/noid.jar", c6NoId), ("mods/good.jar", c6Good)]

def c6Out : List (String × ModUnsafe) :=
  [("mods/good.jar", mkUnsafeRec "mods/good.jar" "alpha" c6GoodRes)]

/-- Claim C6 counterexample: the extractor can throw.  On an archive
whose `mcmod.info` contains the JSON literal `null`,
`parse_mod_details` raises a `TypeError` (accessing `.modList` on
`null`), and `extract_modinfos` then aborts the whole pass instead of
skipping the archive. -/
theorem c6_counterexample :
    parse_mod_details c6BadInput = .error () ∧
    extract_modinfos [("mods/broken.jar", c6BadInput)] = .error () := by
  exact ⟨rfl, rfl⟩

/-- Claim C6 (amended): provided `parse_mod_details` completes without
a runtime type error (metadata `null` or non-string dependency entries
can raise one, which propagates out of `extract_modinfos`), on total
failure it returns `id = undefined` together with an empty `wants`
list, and `extract_modinfos` then skips exactly the archives whose id
is `undefined` with a warning, returning the record built from the
parse result for every other archive, keyed by its file path, in input
order. -/
theorem c6_extractor_contract :
    (∀ inp res, parse_mod_details inp = .ok res → res.id = none →
      res.wants = []) ∧
    (∀ files out, extract_modinfos files = .ok out →
      out = files.filterMap (fun pr =>
        match parse_mod_details pr.2 with
        | .ok res =>
          match res.id with
          | some i => some (pr.1, mkUnsafeRec pr.1 i res)
          | none => none
        | .error _ => none)) := by
  constructor
  · intro inp res h hid
    obtain ⟨so, hso, hfin⟩ := except_bind_ok h
    unfold finishParse at hfin
    split at hfin
    · next s =>
      split at hfin
      · obtain ⟨ws, hws, hres⟩ := except_bind_ok hfin
        cases hres
        cases hid
      · cases hfin
        cases hid
    · cases hfin
      rfl
  · intro files
    induction files with
    | nil =>
      intro out h
      cases h
      rfl
    | cons pr rest ih =>
      intro out h
      obtain ⟨fp, inp⟩ := pr
      simp only [extract_modinfos] at h
      obtain ⟨res, hres, h2⟩ := except_bind_ok h
      obtain ⟨tl, htl, h3⟩ := except_bind_ok h2
      rw [List.filterMap_cons]
      simp only [hres]
      have hx := ih tl htl
      cases hid : res.id with
      | some i =>
        rw [hid] at h3
        have hout := (Except.ok.inj h3).symm
        subst hout
        rw [hx]
      | none =>
        rw [hid] at h3
        have hout := (Except.ok.inj h3).symm
        subst hout
        exact hx

/-- Witness for the amended C6: on the no-metadata archive the parse
succeeds with `id = undefined` and empty `wants`; on the two-archive
list, extraction skips the unresolvable archive and keeps the resolved
one with its parsed record. -/
theorem c6_extractor_contract_witness :
    parse_mod_details c6NoId = .ok c6NoIdRes ∧
    c6NoIdRes.id = none ∧
    c6NoIdRes.wants = [] ∧
    extract_modinfos c6Files = .ok c6Out ∧
    c6Out = c6Files.filterMap (fun pr =>
      match parse_mod_details pr.2 with
      | .ok res =>
        match res.id with
        | some i => some (pr.1, mkUnsafeRec pr.1 i res)
        | none => none
      | .error _ => none) :=
  ⟨rfl, rfl, c6_extractor_contract.1 c6NoId c6NoIdRes rfl rfl, rfl,
    c6_extractor_contract.2 c6Files c6Out rfl⟩

/-! ## Claim C4: the reconciliation edge rebuild
(`trace_deps` / `getModDeep`, src/unnamed/part_006, lines 94-146) -/

/-- In-place mutation of the record stored under `key` through a
function (JS object mutation through a map-value reference). -/
def regMod (m : Registry) (key : String) (f : Mod → Mod) : Registry :=
  m.map (fun p => if p.1 = key then (p.1, f p.2) else p)

lemma regGet_regMod (m : Registry) (key : String) (f : Mod → Mod)
    (k2 : String) :
    regGet (regMod m key f) k2 =
      if k2 = key then (regGet m key).map f else regGet m k2 := by
  induction m with
  | nil => simp [regMod, regGet]
  | cons p t ih =>
    obtain ⟨a, b⟩ := p
    have hcons : regMod ((a, b) :: t) key f =
        (if a = key then (a, f b) else (a, b)) :: regMod t key f := rfl
    rw [hcons]
    by_cases hp : a = key
    · subst hp
      rw [if_pos rfl]
      by_cases h2 : k2 = a
      · subst h2
        simp [regGet]
      · simp [regGet, h2, ih]
    · rw [if_neg hp]
      have hk : ¬ key = a := fun h => hp h.symm
      by_cases h2 : k2 = a
      · subst h2
        simp [regGet, hp]
      · simp [regGet, h2, hk, ih]

/-- `getModDeep` (src/unnamed/part_006, lines 128-146): exact id match,
then case-insensitive key match, then case-insensitive match against
any record's `other_mod_ids` (the key of that record is recovered via
reference identity in JS, i.e. the position of the matching entry). -/
def getModDeep (m : Registry) (target : String) :
    Option String × Option Mod :=
  match regGet m target with
  | some v => (some target, some v)
  | none =>
    match m.find? (fun p => lc p.1 == lc target) with
    | some p => (some p.1, regGet m p.1)
    | none =>
      match m.find? (fun p =>
          (p.2.other_mod_ids.getD []).any (fun mid => lc mid == lc target)) with
      | some p => (some p.1, some p.2)
      | none => (none, none)

/-- JS `Array.prototype.indexOf`: index of the first exact occurrence. -/
def idxOf (x : String) : List String → Option Nat
  | [] => none
  | y :: t => if y == x then some 0 else (idxOf x t).map (· + 1)

/-- `dep_obj.wanted_by.push(mod_id)` on the record stored under `a`. -/
def pushWB (m : Registry) (a k : String) : Registry :=
  regMod m a (fun r => { r with wanted_by := some (r.wanted_by.getD [] ++ [k]) })

/-- `dep_obj.wanted_by = [mod_id]` on the record stored under `a`. -/
def setWB (m : Registry) (a k : String) : Registry :=
  regMod m a (fun r => { r with wanted_by := some [k] })

/-- `mod_object.wants[wants_idx] = actual_dep_id` on the record stored
under `k`. -/
def setWantsAt (m : Registry) (k : String) (idx : Nat) (val : String) :
    Registry :=
  regMod m k (fun r => { r with wants := r.wants.map (fun l => l.set idx val) })

/-- One iteration of the inner loop of `trace_deps` (part_006, lines
101-123) on the entry `dep` of record `k`'s current `wants` array `ws`:
skip forge/FML entries, resolve `dep` via `getModDeep` (the first
lookup at line 102 only logs a warning), and if resolution produced a
record and a truthy canonical id and `indexOf` found the entry, add the
missing `wanted_by` back-edge and normalise the `wants` entry. -/
def processEntry (m : Registry) (k : String) (ws : List String)
    (dep : String) : Registry :=
  if forgeMatch dep then m
  else
    match getModDeep m dep with
    | (some actual, some depObj) =>
      if actual ≠ "" then
        match idxOf dep ws with
        | some idx =>
          match depObj.wanted_by with
          | some wb =>
            if wb.contains k then m
            else setWantsAt (pushWB m actual k) k idx actual
          | none => setWantsAt (setWB m actual k) k idx actual
        | none => m
      else m
    | _ => m

/-- The inner `for (const dep_id of mod_object.wants)` loop: iterate by
index, re-reading the live array each step (its length never changes,
so the initial length bounds the iteration). -/
def traceInner : Nat → Registry → String → Nat → Registry
  | 0, m, _, _ => m
  | steps + 1, m, k, i =>
    match (regGet m k).bind (fun r => r.wants) with
    | none => m
    | some ws =>
      if h : i < ws.length then
        traceInner steps (processEntry m k ws (ws.get ⟨i, h⟩)) k (i + 1)
      else m

/-- The outer `for (const [mod_id, mod_object] of mod_list)` loop of
`trace_deps` over the (fixed) key list. -/
def traceOuter : Registry → List String → Registry
  | m, [] => m
  | m, k :: ks =>
    traceOuter
      (match (regGet m k).bind (fun r => r.wants) with
       | none => m
       | some ws => traceInner ws.length m k 0) ks

/-- `trace_deps` (src/unnamed/part_006, lines 98-126). -/
def trace_deps (m : Registry) : Registry :=
  traceOuter m (m.map Prod.fst)

/-! ### C4 proof infrastructure -/

def nodupKeys (m : Registry) : Prop := (m.map Prod.fst).Nodup

/-- The identity skeleton `trace_deps` resolution depends on: keys and
alternate ids, both never mutated by the edge rebuild. -/
def idsOf (m : Registry) : List (String × Option (List String)) :=
  m.map (fun p => (p.1, p.2.other_mod_ids))

/-- `getModDeep`'s resolved key, computed from the identity skeleton. -/
def resolveIds (ids : List (String × Option (List String))) (t : String) :
    Option String :=
  if ids.any (fun p => p.1 == t) then some t
  else
    match ids.find? (fun p => lc p.1 == lc t) with
    | some p => some p.1
    | none =>
      (ids.find? (fun p =>
        (p.2.getD []).any (fun mid => lc mid == lc t))).map (fun p => p.1)

def resolveKey (m : Registry) (t : String) : Option String :=
  (getModDeep m t).1

def wbOf (m : Registry) (k : String) : List String :=
  ((regGet m k).bind (fun r => r.wanted_by)).getD []

def wantsOpt (m : Registry) (k : String) : Option (List String) :=
  (regGet m k).bind (fun r => r.wants)

def wantsOf (m : Registry) (k : String) : List String :=
  (wantsOpt m k).getD []

/-- The per-entry goal: a non-forge entry of `k`'s wants that resolves
to a truthy canonical id has the back-edge. -/
def entryProp (m : Registry) (k : String) (e : String) : Prop :=
  forgeMatch e = false → ∀ a, resolveKey m e = some a → a ≠ "" →
    k ∈ wbOf m a

def Done (m : Registry) (k : String) : Prop :=
  ∀ e ∈ wantsOf m k, entryProp m k e

def InvUpto (m : Registry) (k : String) (i : Nat) : Prop :=
  ∀ j, j < i → ∀ e, (wantsOf m k).get? j = some e → entryProp m k e

/-- What one mutation step of the edge rebuild preserves: the identity
skeleton, all back-edge memberships, and the `wants` of every other
record. -/
structure StepOk (m mp : Registry) (k0 : String) : Prop where
  ids : idsOf mp = idsOf m
  wb : ∀ a x, x ∈ wbOf m a → x ∈ wbOf mp a
  wother : ∀ k, k ≠ k0 → wantsOpt mp k = wantsOpt m k

lemma StepOk.refl (m : Registry) (k0 : String) : StepOk m m k0 :=
  ⟨rfl, fun _ _ h => h, fun _ _ => rfl⟩

lemma StepOk.trans {m1 m2 m3 : Registry} {k0 : String}
    (a : StepOk m1 m2 k0) (b : StepOk m2 m3 k0) : StepOk m1 m3 k0 :=
  ⟨b.ids.trans a.ids, fun k x h => b.wb k x (a.wb k x h),
    fun k h => (b.wother k h).trans (a.wother k h)⟩

lemma keys_of_idsOf {m mp : Registry} (h : idsOf mp = idsOf m) :
    mp.map Prod.fst = m.map Prod.fst := by
  have h2 := congrArg (List.map Prod.fst) h
  simpa [idsOf, List.map_map, Function.comp] using h2

lemma list_any_map {α β : Type} (l : List α) (f : α → β) (p : β → Bool) :
    (l.map f).any p = l.any (fun a => p (f a)) := by
  induction l with
  | nil => rfl
  | cons a t ih => simp [ih]

lemma regGet_isSome_any (m : Registry) (t : String) :
    (regGet m t).isSome = m.any (fun p => p.1 == t) := by
  induction m with
  | nil => rfl
  | cons p t2 ih =>
    simp only [regGet, List.any_cons]
    by_cases h : t = p.1
    · subst h
      simp
    · rw [if_neg h, ih]
      have : (p.1 == t) = false := by
        cases hb : p.1 == t with
        | false => rfl
        | true => exact absurd (eq_of_beq hb).symm h
      rw [this]
      simp

lemma regGet_isSome_of_mem {m : Registry} {p : String × Mod}
    (h : p ∈ m) : (regGet m p.1).isSome := by
  rw [regGet_isSome_any]
  exact List.any_of_mem h (by simp)

lemma nodupKeys_regGet {m : Registry} (hnd : nodupKeys m)
    {k : String} {v : Mod} (h : (k, v) ∈ m) : regGet m k = some v := by
  induction m with
  | nil => cases h
  | cons q t ih =>
    rcases List.mem_cons.mp h with rfl | h2
    · simp [regGet]
    · have hnd2 : nodupKeys t := (List.nodup_cons.mp hnd).2
      have hq : q.1 ∉ t.map Prod.fst := (List.nodup_cons.mp hnd).1
      have hk : k ≠ q.1 := by
        intro he
        apply hq
        rw [← he]
        exact List.mem_map.mpr ⟨(k, v), h2, rfl⟩
      simp only [regGet, if_neg hk]
      exact ih hnd2 h2

lemma resolveKey_eq_resolveIds (m : Registry) (t : String) :
    resolveKey m t = resolveIds (idsOf m) t := by
  unfold resolveKey getModDeep resolveIds
  cases hg : regGet m t with
  | some v =>
    have hs : (regGet m t).isSome = true := by rw [hg]; rfl
    rw [regGet_isSome_any] at hs
    have hany : (idsOf m).any (fun p => p.1 == t) = true := by
      unfold idsOf
      rw [list_any_map]
      exact hs
    rw [if_pos hany]
  | none =>
    have hs : (regGet m t).isSome = false := by rw [hg]; rfl
    rw [regGet_isSome_any] at hs
    have hany : (idsOf m).any (fun p => p.1 == t) = false := by
      unfold idsOf
      rw [list_any_map]
      exact hs
    rw [if_neg (by rw [hany]; simp)]
    unfold idsOf
    rw [List.find?_map, List.find?_map]
    rw [show (List.find? ((fun (p : String × Option (List String)) =>
      lc p.1 == lc t) ∘ fun (p : String × Mod) =>
        (p.1, p.2.other_mod_ids)) m) = m.find? (fun p => lc p.1 == lc t)
      from rfl]
    rw [show (List.find? ((fun (p : String × Option (List String)) =>
      (p.2.getD []).any (fun mid => lc mid == lc t)) ∘
        fun (p : String × Mod) => (p.1, p.2.other_mod_ids)) m) =
      m.find? (fun p =>
        (p.2.other_mod_ids.getD []).any (fun mid => lc mid == lc t))
      from rfl]
    cases h2 : m.find? (fun p => lc p.1 == lc t) with
    | some p => simp
    | none =>
      simp only [Option.map_none]
      cases h3 : m.find? (fun p =>
          (p.2.other_mod_ids.getD []).any (fun mid => lc mid == lc t)) with
      | some p => simp [Function.comp]
      | none => simp

lemma resolveKey_congr {m mp : Registry} (h : idsOf mp = idsOf m)
    (t : String) : resolveKey mp t = resolveKey m t := by
  rw [resolveKey_eq_resolveIds, resolveKey_eq_resolveIds, h]

lemma entryProp_transport {m mp : Registry} {k e : String}
    (hids : idsOf mp = idsOf m) (hwb : ∀ a x, x ∈ wbOf m a → x ∈ wbOf mp a)
    (h : entryProp m k e) : entryProp mp k e := by
  intro hf a hres hne
  rw [resolveKey_congr hids] at hres
  exact hwb a k (h hf a hres hne)

lemma Done_transport {m mp : Registry} {k k0 : String}
    (hs : StepOk m mp k0) (hk : k ≠ k0) (h : Done m k) : Done mp k := by
  intro e he
  have hw : wantsOf mp k = wantsOf m k := by
    unfold wantsOf
    rw [hs.wother k hk]
  rw [hw] at he
  exact entryProp_transport hs.ids hs.wb (h e he)

/-- Case split on `getModDeep`, packaged as explicit equations. -/
lemma getModDeep_cases (m : Registry) (t : String) :
    (∃ v, regGet m t = some v ∧ getModDeep m t = (some t, some v)) ∨
    (∃ p, regGet m t = none ∧
      m.find? (fun p => lc p.1 == lc t) = some p ∧
      getModDeep m t = (some p.1, regGet m p.1)) ∨
    (∃ p, regGet m t = none ∧
      m.find? (fun p => lc p.1 == lc t) = none ∧
      m.find? (fun p =>
        (p.2.other_mod_ids.getD []).any (fun mid => lc mid == lc t)) = some p ∧
      getModDeep m t = (some p.1, some p.2)) ∨
    (getModDeep m t = (none, none)) := by
  cases hg : regGet m t with
  | some v =>
    exact Or.inl ⟨v, rfl, by unfold getModDeep; rw [hg]⟩
  | none =>
    cases h2 : m.find? (fun p => lc p.1 == lc t) with
    | some p =>
      exact Or.inr (Or.inl ⟨p, rfl, rfl, by unfold getModDeep; rw [hg, h2]⟩)
    | none =>
      cases h3 : m.find? (fun p =>
          (p.2.other_mod_ids.getD []).any (fun mid => lc mid == lc t)) with
      | some p =>
        exact Or.inr (Or.inr (Or.inl
          ⟨p, rfl, rfl, rfl, by unfold getModDeep; rw [hg, h2, h3]⟩))
      | none =>
        exact Or.inr (Or.inr (Or.inr (by unfold getModDeep; rw [hg, h2, h3])))

lemma getModDeep_fst_some_snd {m : Registry} {t a : String}
    (h : (getModDeep m t).1 = some a) :
    ∃ b, getModDeep m t = (some a, some b) := by
  rcases getModDeep_cases m t with ⟨v, _, he⟩ | ⟨p, _, h2, he⟩ |
    ⟨p, _, _, h3, he⟩ | he
  · rw [he] at h ⊢
    exact ⟨v, by rw [Option.some.inj h]⟩
  · rw [he] at h ⊢
    have hp : p ∈ m := List.mem_of_find?_eq_some h2
    have hsome := regGet_isSome_of_mem hp
    cases h4 : regGet m p.1 with
    | none => rw [h4] at hsome; cases hsome
    | some b =>
      refine ⟨b, ?_⟩
      rw [show (some p.1, regGet m p.1).1 = some p.1 from rfl] at h
      rw [← Option.some.inj h]
  · rw [he] at h ⊢
    refine ⟨p.2, ?_⟩
    rw [show (some p.1, some p.2).1 = some p.1 from rfl] at h
    rw [← Option.some.inj h]
  · rw [he] at h
    cases h

lemma getModDeep_regGet {m : Registry} (hnd : nodupKeys m)
    {t a : String} {b : Mod} (h : getModDeep m t = (some a, some b)) :
    regGet m a = some b := by
  rcases getModDeep_cases m t with ⟨v, hg, he⟩ | ⟨p, _, _, he⟩ |
    ⟨p, _, _, h3, he⟩ | he
  · rw [he] at h
    have h1 : some t = some a := congrArg Prod.fst h
    have h2 : some v = some b := congrArg Prod.snd h
    rw [← Option.some.inj h1, hg, h2]
  · rw [he] at h
    have h1 : some p.1 = some a := congrArg Prod.fst h
    have h3 : regGet m p.1 = some b := congrArg Prod.snd h
    rw [← Option.some.inj h1, h3]
  · rw [he] at h
    have h1 : some p.1 = some a := congrArg Prod.fst h
    have h4 : some p.2 = some b := congrArg Prod.snd h
    have hp : p ∈ m := List.mem_of_find?_eq_some h3
    rw [← Option.some.inj h1]
    rw [← Option.some.inj h4]
    exact nodupKeys_regGet hnd hp
  · rw [he] at h
    have h1 : (none : Option String) = some a := congrArg Prod.fst h
    cases h1

lemma resolveKey_present {m : Registry} {t : String}
    (h : (regGet m t).isSome = true) : resolveKey m t = some t := by
  unfold resolveKey getModDeep
  cases hg : regGet m t with
  | none => rw [hg] at h; cases h
  | some v => simp

lemma idxOf_lt_length {x : String} {l : List String} {j : Nat}
    (h : idxOf x l = some j) : j < l.length := by
  induction l generalizing j with
  | nil => cases h
  | cons y t ih =>
    unfold idxOf at h
    by_cases hy : (y == x) = true
    · rw [if_pos hy] at h
      rw [← Option.some.inj h]
      simp
    · rw [if_neg hy] at h
      cases h2 : idxOf x t with
      | none => rw [h2] at h; cases h
      | some j2 =>
        rw [h2] at h
        have : j = j2 + 1 := (Option.some.inj h).symm
        subst this
        have := ih h2
        simp
        omega

lemma idxOf_isSome_of_mem {x : String} {l : List String}
    (h : x ∈ l) : (idxOf x l).isSome = true := by
  induction l with
  | nil => cases h
  | cons y t ih =>
    unfold idxOf
    by_cases hy : (y == x) = true
    · rw [if_pos hy]; rfl
    · rw [if_neg hy]
      rcases List.mem_cons.mp h with rfl | h2
      · exact absurd (beq_iff_eq.mpr rfl) hy
      · cases h3 : idxOf x t with
        | none => rw [h3] at ih; cases ih h2
        | some j => rfl

lemma pget_set {α : Type} (l : List α) (i : Nat) (v : α) (j : Nat) :
    (l.set i v).get? j =
      if j = i then (l.get? j).map (fun _ => v) else l.get? j := by
  induction l generalizing i j with
  | nil => by_cases hj : j = i <;> simp [List.set, hj]
  | cons a t ih =>
    cases i with
    | zero =>
      cases j with
      | zero => simp [List.set]
      | succ j => simp [List.set]
    | succ i =>
      cases j with
      | zero => simp [List.set]
      | succ j => simpa [List.set] using ih i j

lemma wantsOpt_regMod {f : Mod → Mod} (hf : ∀ r, (f r).wants = r.wants)
    (m : Registry) (key k : String) :
    wantsOpt (regMod m key f) k = wantsOpt m k := by
  unfold wantsOpt
  rw [regGet_regMod]
  by_cases h : k = key
  · subst h
    rw [if_pos rfl]
    cases hg : regGet m k with
    | none => rfl
    | some r => simp [hf]
  · rw [if_neg h]

lemma wbOf_regMod_keep {f : Mod → Mod}
    (hf : ∀ r, (f r).wanted_by = r.wanted_by)
    (m : Registry) (key a : String) :
    wbOf (regMod m key f) a = wbOf m a := by
  unfold wbOf
  rw [regGet_regMod]
  by_cases h : a = key
  · subst h
    rw [if_pos rfl]
    cases hg : regGet m a with
    | none => rfl
    | some r => simp [hf]
  · rw [if_neg h]

lemma idsOf_regMod {f : Mod → Mod}
    (hf : ∀ r, (f r).other_mod_ids = r.other_mod_ids)
    (m : Registry) (key : String) :
    idsOf (regMod m key f) = idsOf m := by
  unfold idsOf regMod
  induction m with
  | nil => rfl
  | cons p t ih =>
    simp only [List.map_cons, List.cons.injEq]
    refine ⟨?_, ih⟩
    by_cases h : p.1 = key
    · simp [h, hf]
    · simp [h]

lemma wbOf_pushWB_mono (m : Registry) (a k a2 : String) (x : String)
    (h : x ∈ wbOf m a2) : x ∈ wbOf (pushWB m a k) a2 := by
  unfold wbOf at h ⊢
  unfold pushWB
  rw [regGet_regMod]
  by_cases h2 : a2 = a
  · subst h2
    rw [if_pos rfl]
    cases hg : regGet m a2 with
    | none => rw [hg] at h; cases h
    | some r =>
      rw [hg] at h
      simp only [Option.some_bind] at h
      simp
      exact Or.inl h
  · rw [if_neg h2]
    exact h

lemma wbOf_pushWB_self {m : Registry} {a : String} {r : Mod}
    (hg : regGet m a = some r) (k : String) :
    k ∈ wbOf (pushWB m a k) a := by
  unfold wbOf pushWB
  rw [regGet_regMod, if_pos rfl, hg]
  simp

lemma wbOf_setWB_mono {m : Registry} {a : String} {r : Mod}
    (hg : regGet m a = some r) (hwb : r.wanted_by = none)
    (k a2 x : String) (h : x ∈ wbOf m a2) :
    x ∈ wbOf (setWB m a k) a2 := by
  unfold wbOf at h ⊢
  unfold setWB
  rw [regGet_regMod]
  by_cases h2 : a2 = a
  · subst h2
    rw [hg] at h
    simp only [Option.some_bind, hwb, Option.getD_none] at h
    cases h
  · rw [if_neg h2]
    exact h

lemma wbOf_setWB_self {m : Registry} {a : String} {r : Mod}
    (hg : regGet m a = some r) (k : String) :
    k ∈ wbOf (setWB m a k) a := by
  unfold wbOf setWB
  rw [regGet_regMod, if_pos rfl, hg]
  simp

lemma wantsOpt_regMod_ne {k key : String} (h : k ≠ key)
    (m : Registry) (f : Mod → Mod) :
    wantsOpt (regMod m key f) k = wantsOpt m k := by
  unfold wantsOpt
  rw [regGet_regMod, if_neg h]

lemma wantsOf_eq {m : Registry} {k : String} {ws : List String}
    (h : wantsOpt m k = some ws) : wantsOf m k = ws := by
  unfold wantsOf
  rw [h]
  rfl

/-- Extending the inner-loop invariant without touching the registry:
the current entry already satisfies the per-entry property. -/
lemma InvUpto_succ_of_entry {m : Registry} {k0 : String} {ws : List String}
    {i : Nat} {dep : String} (hws : wantsOpt m k0 = some ws)
    (hdep : ws.get? i = some dep) (hInv : InvUpto m k0 i)
    (hP : entryProp m k0 dep) : InvUpto m k0 (i + 1) := by
  intro j hj e he
  rcases Nat.lt_succ_iff_lt_or_eq.mp hj with hj2 | rfl
  · exact hInv j hj2 e he
  · rw [wantsOf_eq hws] at he
    rw [hdep] at he
    rw [← Option.some.inj he]
    exact hP

/-- The common tail of the two mutation branches of `processEntry`:
after the back-edge is recorded in `m1`, the `wants` entry at `idx` is
rewritten to the canonical id. -/
lemma setWantsAt_spec (m m1 : Registry) (k0 dep actual : String)
    (ws : List String) (idx i : Nat)
    (hids1 : idsOf m1 = idsOf m)
    (hwb1 : ∀ a x, x ∈ wbOf m a → x ∈ wbOf m1 a)
    (hwo1 : ∀ k, k ≠ k0 → wantsOpt m1 k = wantsOpt m k)
    (hw1 : wantsOpt m1 k0 = some ws)
    (hself : k0 ∈ wbOf m1 actual)
    (hidx : idx < ws.length)
    (hdep : ws.get? i = some dep)
    (hres : resolveKey m dep = some actual)
    (hresa : resolveKey m actual = some actual)
    (hws : wantsOpt m k0 = some ws)
    (hInv : InvUpto m k0 i) :
    StepOk m (setWantsAt m1 k0 idx actual) k0 ∧
    wantsOpt (setWantsAt m1 k0 idx actual) k0 = some (ws.set idx actual) ∧
    InvUpto (setWantsAt m1 k0 idx actual) k0 (i + 1) := by
  have hids2 : idsOf (setWantsAt m1 k0 idx actual) = idsOf m1 := by
    unfold setWantsAt
    apply idsOf_regMod
    intro r
    rfl
  have hids : idsOf (setWantsAt m1 k0 idx actual) = idsOf m :=
    hids2.trans hids1
  have hwbkeep : ∀ a, wbOf (setWantsAt m1 k0 idx actual) a = wbOf m1 a := by
    intro a
    unfold setWantsAt
    apply wbOf_regMod_keep
    intro r
    rfl
  have hwb : ∀ a x, x ∈ wbOf m a → x ∈ wbOf (setWantsAt m1 k0 idx actual) a :=
    fun a x hx => (hwbkeep a).symm ▸ hwb1 a x hx
  have hstep : StepOk m (setWantsAt m1 k0 idx actual) k0 := by
    refine ⟨hids, hwb, ?_⟩
    intro k hk
    unfold setWantsAt
    rw [wantsOpt_regMod_ne hk]
    exact hwo1 k hk
  obtain ⟨r1, hr1, hrw⟩ := Option.bind_eq_some.mp hw1
  have hwants : wantsOpt (setWantsAt m1 k0 idx actual) k0 =
      some (ws.set idx actual) := by
    unfold wantsOpt setWantsAt
    rw [regGet_regMod, if_pos rfl, hr1]
    show ({ r1 with wants := r1.wants.map (fun l => l.set idx actual) } :
      Mod).wants = some (ws.set idx actual)
    rw [show ({ r1 with wants := r1.wants.map (fun l => l.set idx actual) } :
      Mod).wants = r1.wants.map (fun l => l.set idx actual) from rfl]
    rw [hrw]
    rfl
  refine ⟨hstep, hwants, ?_⟩
  intro j hj e he
  rw [wantsOf_eq hwants] at he
  have hselfp : k0 ∈ wbOf (setWantsAt m1 k0 idx actual) actual := by
    rw [hwbkeep actual]
    exact hself
  have hcongr : ∀ t, resolveKey (setWantsAt m1 k0 idx actual) t =
      resolveKey m t := fun t => resolveKey_congr hids t
  by_cases hji : j = idx
  · subst hji
    rw [pget_set, if_pos rfl] at he
    have hg : ws.get? j = some (ws.get ⟨j, hidx⟩) := List.get?_eq_get hidx
    rw [hg] at he
    have he2 : e = actual := (Option.some.inj he).symm
    subst he2
    intro _ a h2 _
    rw [hcongr] at h2
    rw [hresa] at h2
    rw [← Option.some.inj h2]
    exact hselfp
  · rw [pget_set, if_neg hji] at he
    by_cases hji2 : j = i
    · subst hji2
      rw [hdep] at he
      have he2 : e = dep := (Option.some.inj he).symm
      subst he2
      intro _ a h2 _
      rw [hcongr] at h2
      rw [hres] at h2
      rw [← Option.some.inj h2]
      exact hselfp
    · have hj3 : j < i := by
        rcases Nat.lt_succ_iff_lt_or_eq.mp hj with h | h
        · exact h
        · exact absurd h hji2
      have he3 : (wantsOf m k0).get? j = some e := by
        rw [wantsOf_eq hws]
        exact he
      exact entryProp_transport hids hwb (hInv j hj3 e he3)

/-- One inner-loop iteration of `trace_deps` preserves the step
invariants and extends the per-entry invariant to the entry just
processed. -/
lemma processEntry_spec (m : Registry) (k0 : String) (ws : List String)
    (i : Nat) (dep : String) (hnd : nodupKeys m)
    (hws : wantsOpt m k0 = some ws)
    (hdep : ws.get? i = some dep)
    (hInv : InvUpto m k0 i) :
    StepOk m (processEntry m k0 ws dep) k0 ∧
    (∃ wsp, wantsOpt (processEntry m k0 ws dep) k0 = some wsp ∧
      wsp.length = ws.length) ∧
    InvUpto (processEntry m k0 ws dep) k0 (i + 1) := by
  by_cases hforge : forgeMatch dep = true
  · have hpe : processEntry m k0 ws dep = m := by
      unfold processEntry
      rw [if_pos hforge]
    rw [hpe]
    refine ⟨StepOk.refl m k0, ⟨ws, hws, rfl⟩, ?_⟩
    refine InvUpto_succ_of_entry hws hdep hInv ?_
    intro hf
    rw [hf] at hforge
    cases hforge
  · rcases hgd : getModDeep m dep with ⟨fc, sc⟩
    cases fc with
    | none =>
      have hpe : processEntry m k0 ws dep = m := by
        unfold processEntry
        rw [if_neg hforge]
        simp only [hgd]
      rw [hpe]
      refine ⟨StepOk.refl m k0, ⟨ws, hws, rfl⟩, ?_⟩
      refine InvUpto_succ_of_entry hws hdep hInv ?_
      intro _ a h2 _
      obtain ⟨b, hb⟩ := getModDeep_fst_some_snd h2
      rw [hgd] at hb
      have h3 : (none : Option String) = some a := congrArg Prod.fst hb
      cases h3
    | some actual =>
      cases sc with
      | none =>
        have hpe : processEntry m k0 ws dep = m := by
          unfold processEntry
          rw [if_neg hforge]
          simp only [hgd]
        rw [hpe]
        refine ⟨StepOk.refl m k0, ⟨ws, hws, rfl⟩, ?_⟩
        refine InvUpto_succ_of_entry hws hdep hInv ?_
        intro _ a h2 _
        obtain ⟨b, hb⟩ := getModDeep_fst_some_snd h2
        rw [hgd] at hb
        have h3 : (none : Option Mod) = some b := congrArg Prod.snd hb
        cases h3
      | some depObj =>
        have hga : regGet m actual = some depObj := getModDeep_regGet hnd hgd
        have hres : resolveKey m dep = some actual := by
          unfold resolveKey
          rw [hgd]
        have hresa : resolveKey m actual = some actual :=
          resolveKey_present (by rw [hga]; rfl)
        by_cases hne : actual = ""
        · have hpe : processEntry m k0 ws dep = m := by
            unfold processEntry
            rw [if_neg hforge]
            simp only [hgd]
            rw [if_neg (not_not_intro hne)]
          rw [hpe]
          refine ⟨StepOk.refl m k0, ⟨ws, hws, rfl⟩, ?_⟩
          refine InvUpto_succ_of_entry hws hdep hInv ?_
          intro _ a h2 h3
          rw [hres] at h2
          rw [← Option.some.inj h2] at h3
          exact absurd hne h3
        · cases hix : idxOf dep ws with
          | none =>
            have hmem : dep ∈ ws := List.get?_mem hdep
            have := idxOf_isSome_of_mem hmem
            rw [hix] at this
            cases this
          | some idx =>
            have hidx : idx < ws.length := idxOf_lt_length hix
            cases hwb : depObj.wanted_by with
            | some wb =>
              by_cases hct : wb.contains k0 = true
              · have hpe : processEntry m k0 ws dep = m := by
                  unfold processEntry
                  rw [if_neg hforge]
                  simp only [hgd]
                  rw [if_pos hne]
                  simp only [hix, hwb]
                  rw [if_pos hct]
                rw [hpe]
                refine ⟨StepOk.refl m k0, ⟨ws, hws, rfl⟩, ?_⟩
                refine InvUpto_succ_of_entry hws hdep hInv ?_
                intro _ a h2 _
                rw [hres] at h2
                rw [← Option.some.inj h2]
                unfold wbOf
                rw [hga]
                simp only [Option.some_bind, hwb, Option.getD_some]
                exact (contains_iff_mem wb k0).mp hct
              · have hpe : processEntry m k0 ws dep =
                    setWantsAt (pushWB m actual k0) k0 idx actual := by
                  unfold processEntry
                  rw [if_neg hforge]
                  simp only [hgd]
                  rw [if_pos hne]
                  simp only [hix, hwb]
                  rw [if_neg hct]
                rw [hpe]
                have hids1 : idsOf (pushWB m actual k0) = idsOf m := by
                  unfold pushWB
                  apply idsOf_regMod
                  intro r
                  rfl
                have hwo1 : ∀ k, wantsOpt (pushWB m actual k0) k =
                    wantsOpt m k := by
                  intro k
                  unfold pushWB
                  apply wantsOpt_regMod
                  intro r
                  rfl
                obtain ⟨hs, hw, hi⟩ := setWantsAt_spec m
                  (pushWB m actual k0) k0 dep actual ws idx i hids1
                  (wbOf_pushWB_mono m actual k0)
                  (fun k _ => hwo1 k)
                  ((hwo1 k0).trans hws)
                  (wbOf_pushWB_self hga k0)
                  hidx hdep hres hresa hws hInv
                exact ⟨hs, ⟨ws.set idx actual, hw, by simp⟩, hi⟩
            | none =>
              have hpe : processEntry m k0 ws dep =
                  setWantsAt (setWB m actual k0) k0 idx actual := by
                unfold processEntry
                rw [if_neg hforge]
                simp only [hgd]
                rw [if_pos hne]
                simp only [hix, hwb]
              rw [hpe]
              have hids1 : idsOf (setWB m actual k0) = idsOf m := by
                unfold setWB
                apply idsOf_regMod
                intro r
                rfl
              have hwo1 : ∀ k, wantsOpt (setWB m actual k0) k =
                  wantsOpt m k := by
                intro k
                unfold setWB
                apply wantsOpt_regMod
                intro r
                rfl
              obtain ⟨hs, hw, hi⟩ := setWantsAt_spec m
                (setWB m actual k0) k0 dep actual ws idx i hids1
                (wbOf_setWB_mono hga hwb k0)
                (fun k _ => hwo1 k)
                ((hwo1 k0).trans hws)
                (wbOf_setWB_self hga k0)
                hidx hdep hres hresa hws hInv
              exact ⟨hs, ⟨ws.set idx actual, hw, by simp⟩, hi⟩

lemma Done_of_InvUpto {m : Registry} {k0 : String} {ws : List String}
    {i : Nat} (hws : wantsOpt m k0 = some ws) (hlen : ws.length ≤ i)
    (hInv : InvUpto m k0 i) : Done m k0 := by
  intro e he
  rw [wantsOf_eq hws] at he
  obtain ⟨j, hj⟩ := List.mem_iff_get?.mp he
  obtain ⟨hjlen, _⟩ := List.get?_eq_some.mp hj
  refine hInv j (lt_of_lt_of_le hjlen hlen) e ?_
  rw [wantsOf_eq hws]
  exact hj

/-- The inner loop of `trace_deps`, run to completion, establishes the
per-entry property for every entry of the processed record while
preserving the step invariants. -/
lemma traceInner_spec (steps : Nat) :
    ∀ (m : Registry) (i : Nat) (ws : List String),
    nodupKeys m → wantsOpt m k0 = some ws → InvUpto m k0 i →
    ws.length ≤ i + steps →
    StepOk m (traceInner steps m k0 i) k0 ∧
    Done (traceInner steps m k0 i) k0 := by
  induction steps with
  | zero =>
    intro m i ws hnd hws hInv hlen
    exact ⟨StepOk.refl m k0,
      Done_of_InvUpto hws (by omega) hInv⟩
  | succ steps ih =>
    intro m i ws hnd hws hInv hlen
    have hws' : (regGet m k0).bind (fun r => r.wants) = some ws := hws
    have hunf : traceInner (steps + 1) m k0 i =
        if h : i < ws.length then
          traceInner steps (processEntry m k0 ws (ws.get ⟨i, h⟩)) k0 (i + 1)
        else m := by
      conv_lhs => unfold traceInner
      simp only [hws']
    rw [hunf]
    by_cases hlt : i < ws.length
    · rw [dif_pos hlt]
      have hdep : ws.get? i = some (ws.get ⟨i, hlt⟩) := List.get?_eq_get hlt
      obtain ⟨hs, ⟨wsp, hwsp, hlenp⟩, hInv2⟩ :=
        processEntry_spec m k0 ws i (ws.get ⟨i, hlt⟩) hnd hws hdep hInv
      have hnd2 : nodupKeys (processEntry m k0 ws (ws.get ⟨i, hlt⟩)) := by
        unfold nodupKeys
        rw [keys_of_idsOf hs.ids]
        exact hnd
      obtain ⟨hs2, hdone⟩ := ih (processEntry m k0 ws (ws.get ⟨i, hlt⟩))
        (i + 1) wsp hnd2 hwsp hInv2 (by omega)
      exact ⟨StepOk.trans hs hs2, hdone⟩
    · rw [dif_neg hlt]
      exact ⟨StepOk.refl m k0,
        Done_of_InvUpto hws (Nat.le_of_not_lt hlt) hInv⟩

/-- The outer loop of `trace_deps`: processed keys accumulate the
per-entry property, keys and nodup-ness are preserved. -/
lemma traceOuter_spec (ks : List String) :
    ∀ (m : Registry) (D : List String),
    nodupKeys m → (∀ k ∈ D, Done m k) →
    (traceOuter m ks).map Prod.fst = m.map Prod.fst ∧
    nodupKeys (traceOuter m ks) ∧
    (∀ k, k ∈ D ∨ k ∈ ks → Done (traceOuter m ks) k) := by
  induction ks with
  | nil =>
    intro m D hnd hD
    refine ⟨rfl, hnd, ?_⟩
    intro k hk
    rcases hk with hk | hk
    · exact hD k hk
    · cases hk
  | cons k0 ks ih =>
    intro m D hnd hD
    rw [show traceOuter m (k0 :: ks) = traceOuter
        (match (regGet m k0).bind (fun r => r.wants) with
         | none => m
         | some ws => traceInner ws.length m k0 0) ks from rfl]
    cases hw : (regGet m k0).bind (fun r => r.wants) with
    | none =>
      show (traceOuter m ks).map Prod.fst = m.map Prod.fst ∧
        nodupKeys (traceOuter m ks) ∧
        (∀ k, k ∈ D ∨ k ∈ k0 :: ks → Done (traceOuter m ks) k)
      have hdk0 : Done m k0 := by
        intro e he
        unfold wantsOf wantsOpt at he
        rw [hw] at he
        cases he
      obtain ⟨hkeys, hnd2, hdone⟩ := ih m (k0 :: D) hnd (by
        intro k hk
        rcases List.mem_cons.mp hk with rfl | hk2
        · exact hdk0
        · exact hD k hk2)
      refine ⟨hkeys, hnd2, ?_⟩
      intro k hk
      rcases hk with hk | hk
      · exact hdone k (Or.inl (List.mem_cons_of_mem _ hk))
      · rcases List.mem_cons.mp hk with rfl | hk2
        · exact hdone k (Or.inl (List.mem_cons_self _ _))
        · exact hdone k (Or.inr hk2)
    | some ws =>
      show (traceOuter (traceInner ws.length m k0 0) ks).map Prod.fst =
          m.map Prod.fst ∧
        nodupKeys (traceOuter (traceInner ws.length m k0 0) ks) ∧
        (∀ k, k ∈ D ∨ k ∈ k0 :: ks →
          Done (traceOuter (traceInner ws.length m k0 0) ks) k)
      have hws : wantsOpt m k0 = some ws := hw
      obtain ⟨hs, hdk0⟩ := traceInner_spec ws.length m 0 ws hnd hws
        (by intro j hj e he; cases hj) (by omega)
      have hkeys1 : (traceInner ws.length m k0 0).map Prod.fst =
          m.map Prod.fst := keys_of_idsOf hs.ids
      have hnd1 : nodupKeys (traceInner ws.length m k0 0) := by
        unfold nodupKeys
        rw [hkeys1]
        exact hnd
      obtain ⟨hkeys2, hnd2, hdone⟩ := ih (traceInner ws.length m k0 0)
        (k0 :: D) hnd1 (by
          intro k hk
          rcases List.mem_cons.mp hk with rfl | hk2
          · exact hdk0
          · by_cases hkk : k = k0
            · subst hkk
              exact hdk0
            · exact Done_transport hs hkk (hD k hk2))
      refine ⟨hkeys2.trans hkeys1, hnd2, ?_⟩
      intro k hk
      rcases hk with hk | hk
      · exact hdone k (Or.inl (List.mem_cons_of_mem _ hk))
      · rcases List.mem_cons.mp hk with rfl | hk2
        · exact hdone k (Or.inl (List.mem_cons_self _ _))
        · exact hdone k (Or.inr hk2)

/-- A record whose only `wants` entry is `"FML"`: `trace_deps` skips
it (line 107's forge/FML pattern), so no back-edge is added even
though the entry resolves to the record keyed `"FML"`. -/
def c4cA : Mod := { default_mod_object with wants := some ["FML"] }

def c4cF : Mod := default_mod_object

def c4cReg : Registry := [("A", c4cA), ("FML", c4cF)]

/-- C4 counterexample: after `trace_deps`, record A's `wants` entry
`"FML"` resolves by exact id match to the record keyed `"FML"`, yet
`"A"` is not in that record's `wanted_by` — the loop skipped the entry
because it matches the Forge/FML regex, so the claimed unconditional
bidirectional edge invariant fails. -/
theorem c4_counterexample :
    ("A", c4cA) ∈ trace_deps c4cReg ∧
    "FML" ∈ c4cA.wants.getD [] ∧
    getModDeep (trace_deps c4cReg) "FML" = (some "FML", some c4cF) ∧
    "A" ∉ c4cF.wanted_by.getD [] := by decide

/-- C4 (amended): after one `trace_deps` pass over a registry with
pairwise-distinct keys (a JS `Map` guarantees this), every record A
and every entry of `A.wants` that does **not** match the Forge/FML
skip pattern and that resolves through `getModDeep` to a truthy
canonical id `a` and record `b` satisfies `A.id ∈ b.wanted_by`. -/
theorem c4_bidirectional_edges (m : Registry) (hnd : nodupKeys m) :
    ∀ p ∈ trace_deps m, ∀ e ∈ p.2.wants.getD [],
      forgeMatch e = false →
      ∀ a b, getModDeep (trace_deps m) e = (some a, some b) →
        a ≠ "" → p.1 ∈ b.wanted_by.getD [] := by
  obtain ⟨hkeys, hndF, hdone⟩ := traceOuter_spec (m.map Prod.fst) m []
    hnd (by intro k hk; cases hk)
  intro p hp e he hforge a b hgd hane
  have htd : trace_deps m = traceOuter m (m.map Prod.fst) := rfl
  have hk1 : p.1 ∈ (trace_deps m).map Prod.fst :=
    List.mem_map.mpr ⟨p, hp, rfl⟩
  have hk2 : p.1 ∈ m.map Prod.fst := by
    rw [htd, hkeys] at hk1
    exact hk1
  have hdp : Done (trace_deps m) p.1 := by
    rw [htd]
    exact hdone p.1 (Or.inr hk2)
  have hndF' : nodupKeys (trace_deps m) := by
    rw [htd]
    exact hndF
  have hgp : regGet (trace_deps m) p.1 = some p.2 :=
    nodupKeys_regGet hndF' hp
  have hwantsOf : e ∈ wantsOf (trace_deps m) p.1 := by
    unfold wantsOf wantsOpt
    rw [hgp]
    simp only [Option.some_bind]
    exact he
  have hres : resolveKey (trace_deps m) e = some a := by
    unfold resolveKey
    rw [hgd]
  have hwb : p.1 ∈ wbOf (trace_deps m) a := hdp e hwantsOf hforge a hres hane
  have hga : regGet (trace_deps m) a = some b := getModDeep_regGet hndF' hgd
  unfold wbOf at hwb
  rw [hga] at hwb
  simpa using hwb

def c4wA : Mod :=
  { default_mod_object with wants := some ["b", "FML"], wanted_by := some [] }

def c4wB : Mod :=
  { default_mod_object with wants := some [], wanted_by := some [] }

def c4wReg : Registry := [("A", c4wA), ("B", c4wB)]

def c4wAPost : Mod := { c4wA with wants := some ["B", "FML"] }

def c4wBPost : Mod := { c4wB with wanted_by := some ["A"] }

/-! ## Claim C8: the reconciler `update_list`
(src/unnamed/part_006, lines 24-57 and 63-92)

`set_new_or_default_property` is modelled per field of the typed
record.  `isModPropertySafe` (mods.ts lines 80-86) is `true` for
strings and string arrays, `false` for booleans and `undefined`; the
JS `Array.from(new Set([...a, ...b]))` union is the order-preserving
exact dedup of `a ++ b`.

`clone` (src/src/utils.ts lines 158-159) is the **shallow**
`Object.assign({}, object)`: a record created by the new-record branch
shares the template's `update_state` object and its `tags` /
`wanted_by` / `wants` / `other_mod_ids` arrays with
`default_mod_object`, with every other same-pass clone, and — via the
`|| default_mod_object.x` fallbacks of `read_saved_mods` (mods.ts
lines 108-121) — with loaded records that were missing those arrays.
The embedding below is by value; it reads back the same field values
as the shared-reference program whenever nothing writes *through* a
shared reference.  Within one `update_list` pass the only in-place
writes are (a) `set_new_or_default_property`'s object branch mutating
the merged record's `update_state`, which is the template's shared
object exactly when the merged record is a clone created earlier in
the same pass, i.e. when two files carry the same mod id (loaded
records get a fresh `update_state` literal in `read_saved_mods`), and
(b) `wanted_by.push` inside `trace_deps` — the array-union merge and
the `wanted_by = [mod_id]` branch assign fresh arrays, and the
`wants[idx] = ...` rewrite needs a nonempty `wants` array while the
only shared `wants` array is the template's empty one, which nothing
ever pushes to.  The C8 theorem therefore assumes pairwise-distinct
file mod ids, which rules out (a) entirely, and quantifies
`wanted_by` — the one field whose value can still diverge by the
push write-through (b) — existentially, so its conclusion holds of
the shallow-clone program. -/

/-- Optional string field: an unset or empty base takes the new value
when present and nonempty, else the default; a set base is kept. -/
def mergeStrField (base newv std : Option String) : Option String :=
  if base = none ∨ base = some "" then
    (if newv ≠ none ∧ newv ≠ some "" then newv else std)
  else base

/-- Required string field (`file_path`): never `undefined` in JS, so
only the `=== ""` half of the emptiness test applies. -/
def mergeStrReq (base newv std : String) : String :=
  if base = "" then (if newv ≠ "" then newv else std) else base

/-- String-array field: an unset base takes the new array when present
(arrays pass `isModPropertySafe` and are never `=== ""`), else the
default; a set base is unioned with a nonempty new array. -/
def mergeArrField (base newv std : Option (List String)) :
    Option (List String) :=
  if base = none then (if newv ≠ none then newv else std)
  else
    match newv with
    | some nl =>
      if nl.length > 0 then base.map (fun l => dedupExact (l ++ nl))
      else base
    | none => base

/-- Boolean field: booleans never pass `isModPropertySafe`, so an
unset base always takes the default. -/
def mergeBoolField (base std : Option Bool) : Option Bool :=
  if base = none then std else base

/-- The recursive object branch of `set_new_or_default_property` on
`update_state`; the new object carries only `version` /
`last_updated_at`. -/
def mergeUS (base : UpdateState) (nv nlu : Option String) : UpdateState :=
  { version :=
      mergeStrField base.version nv default_mod_object.update_state.version
    disable_check :=
      mergeBoolField base.disable_check
        default_mod_object.update_state.disable_check
    frequency :=
      mergeStrField base.frequency none
        default_mod_object.update_state.frequency
    last_status :=
      mergeStrField base.last_status none
        default_mod_object.update_state.last_status
    last_updated_at :=
      mergeStrField base.last_updated_at nlu
        default_mod_object.update_state.last_updated_at
    source_type :=
      mergeStrField base.source_type none
        default_mod_object.update_state.source_type
    file_pattern :=
      mergeStrField base.file_pattern none
        default_mod_object.update_state.file_pattern }

/-- The merge applied to an existing record (part_006 lines 30-38):
`file_path` / `enabled` are assigned from the extraction first, then
every key of `default_mod_object` runs `set_new_or_default_property`
(the extraction has no `tags`/`source`/`notes`/`wanted_by`). -/
def mergeRecord (old : Mod) (nw : ModUnsafe) : Mod :=
  let b : Mod :=
    { old with
        file_path := nw.file_path
        enabled := some nw.enabled }
  { file_path :=
      mergeStrReq b.file_path nw.file_path default_mod_object.file_path
    tags := mergeArrField b.tags none default_mod_object.tags
    source := mergeStrField b.source none default_mod_object.source
    notes := mergeStrField b.notes none default_mod_object.notes
    wanted_by := mergeArrField b.wanted_by none default_mod_object.wanted_by
    wants := mergeArrField b.wants nw.wants default_mod_object.wants
    enabled := mergeBoolField b.enabled default_mod_object.enabled
    other_mod_ids :=
      mergeArrField b.other_mod_ids nw.other_mod_ids
        default_mod_object.other_mod_ids
    update_state := mergeUS b.update_state nw.us_version
      nw.us_last_updated_at }

/-- One file of the first loop of `update_list` (part_006 lines
26-46): merge into the existing record for the extracted id, or create
a shallow clone of the defaults — its `update_state` and arrays alias
the template's (see the section comment) — with only `file_path` (the
map key) and `enabled` overwritten from the extraction (`mod_id` is a
required string, so the `!= undefined` guard always passes). -/
def processFile (m : Registry) (fp : String) (nw : ModUnsafe) : Registry :=
  match regGet m nw.mod_id with
  | some old => regSet m nw.mod_id (mergeRecord old nw)
  | none =>
    regInsert m nw.mod_id
      { default_mod_object with
          file_path := fp
          enabled := some nw.enabled }

/-- `update_list` (part_006 lines 24-57): fold the extraction results
into the loaded map (the second loop only logs missing-file warnings),
then rebuild dependency edges with `trace_deps`. -/
def update_list (files : List (String × ModUnsafe)) (mod_map : Registry) :
    Registry :=
  trace_deps (files.foldl (fun acc q => processFile acc q.1 q.2) mod_map)

/-! ### C8 proof infrastructure -/

/-- Every branch of `processEntry` returns the registry unchanged or
one of the two back-edge/rewrite mutations. -/
lemma processEntry_shape (m : Registry) (k0 : String) (ws : List String)
    (dep : String) :
    processEntry m k0 ws dep = m ∨
    (∃ a idx, processEntry m k0 ws dep =
      setWantsAt (pushWB m a k0) k0 idx a) ∨
    (∃ a idx, processEntry m k0 ws dep =
      setWantsAt (setWB m a k0) k0 idx a) := by
  unfold processEntry
  split
  · exact Or.inl rfl
  · split
    · split
      · split
        · split
          · split
            · exact Or.inl rfl
            · exact Or.inr (Or.inl ⟨_, _, rfl⟩)
          · exact Or.inr (Or.inr ⟨_, _, rfl⟩)
        · exact Or.inl rfl
      · exact Or.inl rfl
    · exact Or.inl rfl

/-- Any registry property preserved by `processEntry` is preserved by
the inner loop. -/
lemma traceInner_ind (Q : Registry → Prop)
    (hQ : ∀ m k0 ws dep, Q m → Q (processEntry m k0 ws dep)) :
    ∀ (steps : Nat) (m : Registry) (k0 : String) (i : Nat),
    Q m → Q (traceInner steps m k0 i) := by
  intro steps
  induction steps with
  | zero => intro m k0 i h; exact h
  | succ steps ih =>
    intro m k0 i h
    cases hw : (regGet m k0).bind (fun r => r.wants) with
    | none =>
      have hunf : traceInner (steps + 1) m k0 i = m := by
        conv_lhs => unfold traceInner
        simp only [hw]
      rw [hunf]
      exact h
    | some ws =>
      have hunf : traceInner (steps + 1) m k0 i =
          if h2 : i < ws.length then
            traceInner steps (processEntry m k0 ws (ws.get ⟨i, h2⟩)) k0
              (i + 1)
          else m := by
        conv_lhs => unfold traceInner
        simp only [hw]
      rw [hunf]
      by_cases hlt : i < ws.length
      · rw [dif_pos hlt]
        exact ih _ _ _ (hQ m k0 ws (ws.get ⟨i, hlt⟩) h)
      · rw [dif_neg hlt]
        exact h

/-- Any registry property preserved by `processEntry` is preserved by
the whole `trace_deps` pass. -/
lemma traceOuter_ind (Q : Registry → Prop)
    (hQ : ∀ m k0 ws dep, Q m → Q (processEntry m k0 ws dep)) :
    ∀ (ks : List String) (m : Registry), Q m → Q (traceOuter m ks) := by
  intro ks
  induction ks with
  | nil => intro m h; exact h
  | cons k0 ks ih =>
    intro m h
    rw [show traceOuter m (k0 :: ks) = traceOuter
        (match (regGet m k0).bind (fun r => r.wants) with
         | none => m
         | some ws => traceInner ws.length m k0 0) ks from rfl]
    cases hw : (regGet m k0).bind (fun r => r.wants) with
    | none => exact ih m h
    | some ws => exact ih _ (traceInner_ind Q hQ ws.length m k0 0 h)

lemma trace_deps_ind (Q : Registry → Prop)
    (hQ : ∀ m k0 ws dep, Q m → Q (processEntry m k0 ws dep))
    (m : Registry) (h : Q m) : Q (trace_deps m) :=
  traceOuter_ind Q hQ (m.map Prod.fst) m h

/-- A record whose `wants` is the empty array is only ever touched in
its `wanted_by` field by the edge rebuild: the `wants[idx] = ...`
rewrite is the identity on `[]`. -/
lemma processEntry_rec_pres {r : Mod} (hw : r.wants = some [])
    (k : String) (m : Registry) (k0 : String) (ws : List String)
    (dep : String)
    (h : ∃ wb, regGet m k = some { r with wanted_by := wb }) :
    ∃ wb, regGet (processEntry m k0 ws dep) k =
      some { r with wanted_by := wb } := by
  obtain ⟨wb, hwb⟩ := h
  rcases processEntry_shape m k0 ws dep with hm | ⟨a, idx, hm⟩ |
    ⟨a, idx, hm⟩ <;> rw [hm]
  · exact ⟨wb, hwb⟩
  · have h1 : ∃ wb2, regGet (pushWB m a k0) k =
        some { r with wanted_by := wb2 } := by
      unfold pushWB
      rw [regGet_regMod]
      by_cases hka : k = a
      · rw [if_pos hka, ← hka, hwb]
        exact ⟨some (wb.getD [] ++ [k0]), rfl⟩
      · rw [if_neg hka]
        exact ⟨wb, hwb⟩
    obtain ⟨wb2, hwb2⟩ := h1
    unfold setWantsAt
    rw [regGet_regMod]
    by_cases hkk : k = k0
    · subst hkk
      rw [if_pos rfl, hwb2]
      refine ⟨wb2, ?_⟩
      rw [show ∀ (g : Mod → Mod) (x : Mod),
        Option.map g (some x) = some (g x) from fun g x => rfl]
      refine congrArg some ?_
      have h4 : r.wants.map (fun l => l.set idx a) = r.wants := by
        rw [hw]
        rfl
      rw [h4]
    · rw [if_neg hkk]
      exact ⟨wb2, hwb2⟩
  · have h1 : ∃ wb2, regGet (setWB m a k0) k =
        some { r with wanted_by := wb2 } := by
      unfold setWB
      rw [regGet_regMod]
      by_cases hka : k = a
      · rw [if_pos hka, ← hka, hwb]
        exact ⟨some [k0], rfl⟩
      · rw [if_neg hka]
        exact ⟨wb, hwb⟩
    obtain ⟨wb2, hwb2⟩ := h1
    unfold setWantsAt
    rw [regGet_regMod]
    by_cases hkk : k = k0
    · subst hkk
      rw [if_pos rfl, hwb2]
      refine ⟨wb2, ?_⟩
      rw [show ∀ (g : Mod → Mod) (x : Mod),
        Option.map g (some x) = some (g x) from fun g x => rfl]
      refine congrArg some ?_
      have h4 : r.wants.map (fun l => l.set idx a) = r.wants := by
        rw [hw]
        rfl
      rw [h4]
    · rw [if_neg hkk]
      exact ⟨wb2, hwb2⟩

lemma regGet_append (m : Registry) (p : String × Mod) (k : String) :
    regGet (m ++ [p]) k =
      match regGet m k with
      | some v => some v
      | none => if k = p.1 then some p.2 else none := by
  induction m with
  | nil => rfl
  | cons q t ih =>
    show regGet (q :: (t ++ [p])) k = _
    unfold regGet
    by_cases hk : k = q.1
    · rw [if_pos hk, if_pos hk]
    · rw [if_neg hk, if_neg hk]
      exact ih

lemma regGet_regInsert_ne {k k2 : String} (hne : k ≠ k2)
    (m : Registry) (v : Mod) :
    regGet (regInsert m k2 v) k = regGet m k := by
  unfold regInsert
  by_cases hs : (regGet m k2).isSome = true
  · rw [if_pos hs, regGet_regSet, if_neg hne]
  · rw [if_neg hs, regGet_append]
    cases hg : regGet m k with
    | some w => rfl
    | none => rw [if_neg hne]

lemma regGet_regInsert_new {m : Registry} {k : String}
    (hnone : regGet m k = none) (v : Mod) :
    regGet (regInsert m k v) k = some v := by
  unfold regInsert
  rw [if_neg (by rw [hnone]; simp), regGet_append, hnone, if_pos rfl]

lemma processFile_regGet_ne {k : String} {nw : ModUnsafe}
    (hne : nw.mod_id ≠ k) (m : Registry) (fp : String) :
    regGet (processFile m fp nw) k = regGet m k := by
  unfold processFile
  cases hg : regGet m nw.mod_id with
  | some old =>
    rw [regGet_regSet, if_neg (fun h => hne h.symm)]
  | none =>
    exact regGet_regInsert_ne (fun h => hne h.symm) m _

lemma fold_processFile_ne {k : String} (l : List (String × ModUnsafe))
    (hl : ∀ q ∈ l, q.2.mod_id ≠ k) :
    ∀ m : Registry,
    regGet (l.foldl (fun acc q => processFile acc q.1 q.2) m) k =
      regGet m k := by
  induction l with
  | nil => intro m; rfl
  | cons q t ih =>
    intro m
    show regGet (t.foldl (fun acc q => processFile acc q.1 q.2)
      (processFile m q.1 q.2)) k = _
    rw [ih (fun p hp => hl p (List.mem_cons_of_mem _ hp))]
    exact processFile_regGet_ne (hl q (List.mem_cons_self _ _)) m q.1

/-- An extraction for a brand-new identity that carries a dependency
seed, an alternate id and a version. -/
def c8nw : ModUnsafe :=
  { mod_id := "newmod"
    file_path := "mods/new.jar"
    enabled := true
    wants := some ["dep"]
    other_mod_ids := some ["alias"]
    us_version := some "1.0"
    us_last_updated_at := none }

def c8Files : List (String × ModUnsafe) := [("mods/new.jar", c8nw)]

def c8NewRec : Mod :=
  { default_mod_object with
      file_path := "mods/new.jar"
      enabled := some true }

/-- C8 counterexample: feeding `update_list` a single new extraction
whose `wants`, `other_mod_ids` and version are all set produces a
record that keeps the template defaults (`[]`, `[]`, `""`) for those
fields — the new-record branch (part_006 lines 39-45) copies only
`file_path` and `enabled`.  On this input (one file, empty map) no
merge runs and `trace_deps` iterates an empty `wants`, so nothing is
ever written through a shared reference and the by-value run computes
exactly the record of the shallow-clone program. -/
theorem c8_counterexample :
    regGet (update_list c8Files []) "newmod" = some c8NewRec ∧
    c8nw.wants = some ["dep"] ∧
    c8nw.other_mod_ids = some ["alias"] ∧
    c8nw.us_version = some "1.0" ∧
    c8NewRec.wants = some [] ∧
    c8NewRec.other_mod_ids = some [] ∧
    c8NewRec.update_state.version = some "" := by decide

/-- C8 (amended): on a scan whose extracted mod ids are pairwise
distinct — so no same-pass clone is ever merged and nothing writes
through the shallowly shared template `update_state` (see the section
comment) — when `update_list` first creates a record for an identity
absent from the loaded map, only `file_path` (the file map key) and
`enabled` are taken from the extraction; `other_mod_ids`, the `wants`
seed and `update_state.version` stay at the `default_mod_object`
template values, and only `wanted_by` may differ afterwards (filled
in by the closing `trace_deps` pass, possibly through a shared
array — which is why it is quantified existentially). -/
theorem c8_new_record_defaults (l1 l2 : List (String × ModUnsafe))
    (m : Registry) (fp : String) (nw : ModUnsafe)
    (hids : ((l1 ++ (fp, nw) :: l2).map (fun q => q.2.mod_id)).Nodup)
    (hnew : regGet m nw.mod_id = none) :
    ∃ wb, regGet (update_list (l1 ++ (fp, nw) :: l2) m) nw.mod_id =
      some { default_mod_object with
        file_path := fp
        enabled := some nw.enabled
        wanted_by := wb } := by
  rw [List.map_append, List.map_cons] at hids
  obtain ⟨hn1, hn2, hdisj⟩ := List.nodup_append.mp hids
  obtain ⟨hnotin, hn3⟩ := List.nodup_cons.mp hn2
  have h1 : ∀ q ∈ l1, q.2.mod_id ≠ nw.mod_id := by
    intro q hq heq
    exact hdisj (List.mem_map.mpr ⟨q, hq, rfl⟩)
      (heq ▸ List.mem_cons_self _ _)
  have h2 : ∀ q ∈ l2, q.2.mod_id ≠ nw.mod_id := by
    intro q hq heq
    exact hnotin (heq ▸ List.mem_map.mpr ⟨q, hq, rfl⟩)
  unfold update_list
  have hfold : (l1 ++ (fp, nw) :: l2).foldl
      (fun acc q => processFile acc q.1 q.2) m =
    l2.foldl (fun acc q => processFile acc q.1 q.2)
      (processFile (l1.foldl (fun acc q => processFile acc q.1 q.2) m)
        fp nw) := by
    rw [List.foldl_append]
    rfl
  rw [hfold]
  set A := l1.foldl (fun acc q => processFile acc q.1 q.2) m with hA
  have hg0 : regGet A nw.mod_id = none := by
    rw [hA, fold_processFile_ne l1 h1]
    exact hnew
  have hg1 : regGet (processFile A fp nw) nw.mod_id =
      some { default_mod_object with
        file_path := fp
        enabled := some nw.enabled } := by
    unfold processFile
    simp only [hg0]
    exact regGet_regInsert_new hg0 _
  have hg2 : regGet (l2.foldl (fun acc q => processFile acc q.1 q.2)
      (processFile A fp nw)) nw.mod_id =
      some { default_mod_object with
        file_path := fp
        enabled := some nw.enabled } := by
    rw [fold_processFile_ne l2 h2]
    exact hg1
  exact trace_deps_ind
    (fun mm => ∃ wb, regGet mm nw.mod_id =
      some { default_mod_object with
        file_path := fp
        enabled := some nw.enabled
        wanted_by := wb })
    (fun m2 k0 ws dep h =>
      @processEntry_rec_pres
        { default_mod_object with file_path := fp, enabled := some nw.enabled }
        rfl nw.mod_id m2 k0 ws dep h)
    _ ⟨default_mod_object.wanted_by, hg2⟩

theorem c8_new_record_defaults_witness :
    ((([] : List (String × ModUnsafe)) ++ ("mods/new.jar", c8nw) :: []).map
      (fun q => q.2.mod_id)).Nodup ∧
    regGet ([] : Registry) c8nw.mod_id = none ∧
    ∃ wb, regGet (update_list ([] ++ ("mods/new.jar", c8nw) :: []) [])
        c8nw.mod_id =
      some { default_mod_object with
        file_path := "mods/new.jar"
        enabled := some c8nw.enabled
        wanted_by := wb } :=
  ⟨by decide, rfl,
    c8_new_record_defaults [] [] [] "mods/new.jar" c8nw (by decide) rfl⟩

theorem c4_bidirectional_edges_witness :
    nodupKeys c4wReg ∧ "A" ∈ c4wBPost.wanted_by.getD [] :=
  ⟨by unfold nodupKeys; decide,
    c4_bidirectional_edges c4wReg (by unfold nodupKeys; decide)
      ("A", c4wAPost) (by decide)
      "B" (by decide) (by decide) "B" c4wBPost (by decide) (by decide)⟩

/-! ## Claim C10: `get_mods_in_group`
(src/src/subcommands/binary.ts, lines 19-61)

The JS `Set` is an insertion-ordered duplicate-free list (`dedupExact`
/ `addS`); `Set.forEach` visits elements appended during the iteration,
so the loop is indexed with the live list re-read each step.  The
recursive `get_deps` closure is not structurally terminating (a
dependency cycle diverges), so both it and the `forEach` walk take the
fuel parameter and return `none` when it runs out.  `dep_key` is the
Boolean `selWants` (`true` = `'wants'`). -/

/-- The `for (const dep of mod_deps)` body of `get_deps`: skip entries
failing `isNotItself`, otherwise emit the recursive dependencies
followed by the entry itself. -/
def getDepsLoop (rec : String → Option (List String)) (root : String)
    (other : List String) : List String → Option (List String)
  | [] => some []
  | d :: t =>
    if isNotItself d root other then
      (rec d).bind (fun sub =>
        (getDepsLoop rec root other t).map (fun rest => sub ++ d :: rest))
    else getDepsLoop rec root other t

/-- `get_deps` (binary.ts lines 37-54): a missing record or dependency
list yields `[]`. -/
def getDepsFuel (selWants : Bool) (m : Registry) :
    Nat → String → Option (List String)
  | 0, _ => none
  | fuel + 1, mod_id =>
    match regGet m mod_id with
    | none => some []
    | some mod =>
      match (if selWants then mod.wants else mod.wanted_by) with
      | none => some []
      | some mod_deps =>
        getDepsLoop (fun d => getDepsFuel selWants m fuel d) mod_id
          (mod.other_mod_ids.getD []) mod_deps

/-- `group_list.forEach(...)` (binary.ts lines 56-58): walk the live
set by index, adding each element's dependencies. -/
def forEachFuel (getd : String → Option (List String)) :
    Nat → List String → Nat → Option (List String)
  | 0, gl, i => if gl.length ≤ i then some gl else none
  | fuel + 1, gl, i =>
    if h : i < gl.length then
      (getd (gl.get ⟨i, h⟩)).bind (fun deps =>
        forEachFuel getd fuel (deps.foldl addS gl) (i + 1))
    else some gl

/-- `get_mods_in_group` (binary.ts lines 19-61): slice the ordered id
list by the group bounds, optionally add the `'-- deps --'` marker,
then close the set under `get_deps`. -/
def get_mods_in_group (fuel : Nat) (m : Registry) (mod_list : List String)
    (groups : List Nat) (sect : Nat) (selWants : Bool)
    (show_deps : Bool) : Option (List String) :=
  let group_limit := (groups.get? sect).getD 0
  let group_start_index := (groups.take sect).sum
  let group_list :=
    dedupExact ((mod_list.drop group_start_index).take group_limit)
  let gl0 := if show_deps then addS group_list "-- deps --" else group_list
  forEachFuel (fun mid => getDepsFuel selWants m fuel mid) fuel gl0 0

/-- The dependency edge `get_deps` follows: `d` is an entry of `a`'s
selected dependency list passing `isNotItself`. -/
def depEdge (selWants : Bool) (m : Registry) (a d : String) : Prop :=
  ∃ mod, regGet m a = some mod ∧
    d ∈ ((if selWants then mod.wants else mod.wanted_by).getD []) ∧
    isNotItself d a (mod.other_mod_ids.getD []) = true

lemma addS_mem_mono {gl : List String} {x : String} (h : x ∈ gl)
    (d : String) : x ∈ addS gl d := by
  unfold addS
  by_cases hc : gl.contains d = true
  · rw [if_pos hc]
    exact h
  · rw [if_neg hc]
    exact List.mem_append_left _ h

lemma addS_mem_self (gl : List String) (d : String) : d ∈ addS gl d := by
  unfold addS
  by_cases hc : gl.contains d = true
  · rw [if_pos hc]
    exact (contains_iff_mem gl d).mp hc
  · rw [if_neg hc]
    exact List.mem_append_right _ (List.mem_singleton.mpr rfl)

lemma mem_addS {gl : List String} {x d : String} (h : x ∈ addS gl d) :
    x ∈ gl ∨ x = d := by
  unfold addS at h
  by_cases hc : gl.contains d = true
  · rw [if_pos hc] at h
    exact Or.inl h
  · rw [if_neg hc] at h
    rcases List.mem_append.mp h with h2 | h2
    · exact Or.inl h2
    · exact Or.inr (List.mem_singleton.mp h2)

lemma foldl_addS_mem_mono {x : String} :
    ∀ (deps gl : List String), x ∈ gl → x ∈ deps.foldl addS gl := by
  intro deps
  induction deps with
  | nil => intro gl h; exact h
  | cons d t ih => intro gl h; exact ih (addS gl d) (addS_mem_mono h d)

lemma mem_foldl_addS {x : String} :
    ∀ (deps gl : List String), x ∈ deps.foldl addS gl →
      x ∈ gl ∨ x ∈ deps := by
  intro deps
  induction deps with
  | nil => intro gl h; exact Or.inl h
  | cons d t ih =>
    intro gl h
    rcases ih (addS gl d) h with h2 | h2
    · rcases mem_addS h2 with h3 | h3
      · exact Or.inl h3
      · exact Or.inr (h3 ▸ List.mem_cons_self _ _)
    · exact Or.inr (List.mem_cons_of_mem _ h2)

lemma mem_dedupExactAux {x : String} :
    ∀ (l seen : List String), x ∈ dedupExactAux seen l → x ∈ l := by
  intro l
  induction l with
  | nil => intro seen h; cases h
  | cons y t ih =>
    intro seen h
    unfold dedupExactAux at h
    by_cases hc : seen.contains y = true
    · rw [if_pos hc] at h
      exact List.mem_cons_of_mem _ (ih seen h)
    · rw [if_neg hc] at h
      rcases List.mem_cons.mp h with rfl | h2
      · exact List.mem_cons_self _ _
      · exact List.mem_cons_of_mem _ (ih (y :: seen) h2)

lemma forEachFuel_mem_mono {getd : String → Option (List String)}
    {x : String} :
    ∀ (fuel : Nat) (gl : List String) (i : Nat) (out : List String),
    x ∈ gl → forEachFuel getd fuel gl i = some out → x ∈ out := by
  intro fuel
  induction fuel with
  | zero =>
    intro gl i out hx h
    unfold forEachFuel at h
    by_cases hc : gl.length ≤ i
    · rw [if_pos hc] at h
      rw [← Option.some.inj h]
      exact hx
    · rw [if_neg hc] at h
      cases h
  | succ fuel ih =>
    intro gl i out hx h
    unfold forEachFuel at h
    by_cases hlt : i < gl.length
    · rw [dif_pos hlt] at h
      obtain ⟨deps, _, h2⟩ := Option.bind_eq_some.mp h
      exact ih _ _ _ (foldl_addS_mem_mono deps gl hx) h2
    · rw [dif_neg hlt] at h
      rw [← Option.some.inj h]
      exact hx

lemma forEachFuel_inv (P : String → Prop)
    {getd : String → Option (List String)}
    (hgetd : ∀ y l, P y → getd y = some l → ∀ x ∈ l, P x) :
    ∀ (fuel : Nat) (gl : List String) (i : Nat) (out : List String),
    (∀ x ∈ gl, P x) → forEachFuel getd fuel gl i = some out →
    ∀ x ∈ out, P x := by
  intro fuel
  induction fuel with
  | zero =>
    intro gl i out hgl h
    unfold forEachFuel at h
    by_cases hc : gl.length ≤ i
    · rw [if_pos hc] at h
      rw [← Option.some.inj h]
      exact hgl
    · rw [if_neg hc] at h
      cases h
  | succ fuel ih =>
    intro gl i out hgl h
    unfold forEachFuel at h
    by_cases hlt : i < gl.length
    · rw [dif_pos hlt] at h
      obtain ⟨deps, hdeps, h2⟩ := Option.bind_eq_some.mp h
      refine ih _ _ _ ?_ h2
      intro x hx
      rcases mem_foldl_addS deps gl hx with h3 | h3
      · exact hgl x h3
      · exact hgetd _ deps (hgl _ (List.get_mem gl _ hlt)) hdeps x h3
    · rw [dif_neg hlt] at h
      rw [← Option.some.inj h]
      exact hgl

lemma getDepsLoop_spec {E : String → String → Prop} {root : String}
    {other : List String} {rec : String → Option (List String)}
    (hrec : ∀ d l2, rec d = some l2 →
      ∀ x ∈ l2, Relation.ReflTransGen E d x) :
    ∀ (ds l : List String),
    (∀ d ∈ ds, isNotItself d root other = true → E root d) →
    getDepsLoop rec root other ds = some l →
    ∀ x ∈ l, Relation.TransGen E root x := by
  intro ds
  induction ds with
  | nil =>
    intro l _ h x hx
    rw [← Option.some.inj h] at hx
    cases hx
  | cons d t ih =>
    intro l hE h x hx
    unfold getDepsLoop at h
    by_cases hni : isNotItself d root other = true
    · rw [if_pos hni] at h
      obtain ⟨sub, hsub, h2⟩ := Option.bind_eq_some.mp h
      obtain ⟨rest, hrest, h3⟩ := Option.map_eq_some'.mp h2
      rw [← h3] at hx
      have hroot : E root d := hE d (List.mem_cons_self _ _) hni
      rcases List.mem_append.mp hx with hx2 | hx2
      · exact Relation.TransGen.head' hroot (hrec d sub hsub x hx2)
      · rcases List.mem_cons.mp hx2 with rfl | hx3
        · exact Relation.TransGen.single hroot
        · exact ih rest (fun q hq => hE q (List.mem_cons_of_mem _ hq))
            hrest x hx3
    · rw [if_neg hni] at h
      exact ih l (fun q hq => hE q (List.mem_cons_of_mem _ hq)) h x hx

lemma getDepsFuel_spec {selWants : Bool} {m : Registry} :
    ∀ (fuel : Nat) (mod_id : String) (l : List String),
    getDepsFuel selWants m fuel mod_id = some l →
    ∀ x ∈ l, Relation.TransGen (depEdge selWants m) mod_id x := by
  intro fuel
  induction fuel with
  | zero => intro mod_id l h; cases h
  | succ fuel ih =>
    intro mod_id l h x hx
    unfold getDepsFuel at h
    cases hg : regGet m mod_id with
    | none =>
      simp only [hg] at h
      rw [← Option.some.inj h] at hx
      cases hx
    | some mod =>
      simp only [hg] at h
      cases hd : (if selWants then mod.wants else mod.wanted_by) with
      | none =>
        simp only [hd] at h
        rw [← Option.some.inj h] at hx
        cases hx
      | some ds =>
        simp only [hd] at h
        refine getDepsLoop_spec ?_ ds l ?_ h x hx
        · intro d l2 hl2 y hy
          exact (ih d l2 hl2 y hy).to_reflTransGen
        · intro d hd2 hni
          exact ⟨mod, hg, by rw [hd]; exact hd2, hni⟩

/-- C10: with `show_deps = true` the returned group list contains the
literal marker `'-- deps --'`; with `show_deps = false` (the mode used
when actually disabling) every returned id is either in the section's
slice of the ordered id list or reachable from a sliced id along
`get_deps` dependency edges.  Completion of the fueled walk (`some`)
models termination of the JS recursion. -/
theorem c10_group_sections (fuel : Nat) (m : Registry)
    (mod_list : List String) (groups : List Nat) (sect : Nat)
    (selWants : Bool) :
    (∀ out, get_mods_in_group fuel m mod_list groups sect selWants true =
        some out → "-- deps --" ∈ out) ∧
    (∀ out, get_mods_in_group fuel m mod_list groups sect selWants false =
        some out → ∀ x ∈ out,
      x ∈ (mod_list.drop (groups.take sect).sum).take
          ((groups.get? sect).getD 0) ∨
      ∃ r ∈ (mod_list.drop (groups.take sect).sum).take
          ((groups.get? sect).getD 0),
        Relation.TransGen (depEdge selWants m) r x) := by
  constructor
  · intro out h
    replace h : forEachFuel (fun mid => getDepsFuel selWants m fuel mid)
        fuel
        (addS (dedupExact ((mod_list.drop (groups.take sect).sum).take
          ((groups.get? sect).getD 0))) "-- deps --") 0 = some out := h
    exact forEachFuel_mem_mono fuel _ 0 out (addS_mem_self _ _) h
  · intro out h
    replace h : forEachFuel (fun mid => getDepsFuel selWants m fuel mid)
        fuel
        (dedupExact ((mod_list.drop (groups.take sect).sum).take
          ((groups.get? sect).getD 0))) 0 = some out := h
    refine forEachFuel_inv
      (fun x => x ∈ (mod_list.drop (groups.take sect).sum).take
          ((groups.get? sect).getD 0) ∨
        ∃ r ∈ (mod_list.drop (groups.take sect).sum).take
            ((groups.get? sect).getD 0),
          Relation.TransGen (depEdge selWants m) r x)
      ?_ fuel _ 0 out ?_ h
    · intro y l hy hl x hx
      have hyx := getDepsFuel_spec fuel y l hl x hx
      rcases hy with hy2 | ⟨r, hr, hry⟩
      · exact Or.inr ⟨y, hy2, hyx⟩
      · exact Or.inr ⟨r, hr, hry.trans hyx⟩
    · intro x hx
      exact Or.inl (mem_dedupExactAux _ [] hx)

def c10A : Mod :=
  { default_mod_object with wants := some ["B"], wanted_by := some [] }

def c10B : Mod :=
  { default_mod_object with wants := some [], wanted_by := some [] }

def c10Reg : Registry := [("A", c10A), ("B", c10B)]

theorem c10_group_sections_witness :
    "-- deps --" ∈ ["A", "-- deps --", "B"] ∧
    (∀ x ∈ ["A", "B"],
      x ∈ (["A", "B"].drop ([1, 1].take 0).sum).take
          (([1, 1].get? 0).getD 0) ∨
      ∃ r ∈ (["A", "B"].drop ([1, 1].take 0).sum).take
          (([1, 1].get? 0).getD 0),
        Relation.TransGen (depEdge true c10Reg) r x) :=
  ⟨(c10_group_sections 5 c10Reg ["A", "B"] [1, 1] 0 true).1
      ["A", "-- deps --", "B"] (by decide),
    (c10_group_sections 5 c10Reg ["A", "B"] [1, 1] 0 true).2
      ["A", "B"] (by decide)⟩

end Packscripts
